import Mathlib

/-!
Verification of the kmp-tools screenshot pipeline against its specification.

This development shallowly embeds the Python sources of the repository:

* `src/screenshots/vision_analyzer.py` — the vision-oracle client and its
  deterministic fallback (`VisionAnalyzer.analyze_and_rank_screenshots`);
* `src/screenshots/screenshot_pipeline.py` — the orchestrator
  (`ScreenshotPipeline.analyze` two-pass rename, `ScreenshotPipeline.generate`);
* `src/ios-tools/screenshots/image_processor.py` — the image processor
  (`wrap_text`, `calculate_optimal_font_size`, the scaling part of
  `create_screenshot_with_text`).

Modelling conventions:

* The imaging library (PIL) is an external collaborator.  Text measurement
  (`draw.textbbox`) and font loading (`ImageFont.truetype`) are therefore
  parameters of the embedded functions; rendering/encoding is a parameter of
  the `generate` model.
* Machine floats in the source appear only as fixed decimal constants
  (`0.05`, `0.9`, `0.3`, ratio comparisons); they are modelled with exact
  rational / natural arithmetic (`int(x * 0.05)` becomes `x * 5 / 100`,
  Python `int` truncation on nonnegative values being floor, i.e. `Nat` or
  `Int.floor` division).
* The filesystem is a list of path/content pairs (or just a list of names
  where contents are irrelevant); `shutil.move` clobbers an existing
  destination and fails on a missing source, as on POSIX.
* Python strings are `String`, lists are `List`, dicts that are used in
  insertion order are association lists.
-/

/-! ### Decimal formatting, f"{n:02d}"

`screenshot_pipeline.py` builds temp and final file names with the format
specifier `{rank:02d}`: the decimal representation of the rank, left-padded
with `0` to width two.  We define the decimal digit string from scratch so
that injectivity can be proved by exhibiting the decoding function.
-/

/-- Fuel-driven decimal digit expansion (structural recursion so that the
kernel can evaluate it); `fuel > n` always suffices. -/
def decCharsCore : Nat → Nat → List Char
  | 0, _ => []
  | fuel + 1, n =>
    if n < 10 then [Char.ofNat (48 + n)]
    else decCharsCore fuel (n / 10) ++ [Char.ofNat (48 + n % 10)]

/-- Decimal digit characters of `n` (most significant first), as produced by
Python's `str`/`format` for a nonnegative integer. -/
def decChars (n : Nat) : List Char := decCharsCore (n + 1) n

theorem decCharsCore_fuel : ∀ f₁ f₂ n : Nat, n < f₁ → n < f₂ →
    decCharsCore f₁ n = decCharsCore f₂ n
  | 0, _, _, h₁, _ => absurd h₁ (by omega)
  | _ + 1, 0, _, _, h₂ => absurd h₂ (by omega)
  | f₁ + 1, f₂ + 1, n, h₁, h₂ => by
    simp only [decCharsCore]
    split
    · rfl
    · rename_i hn
      have hd : n / 10 < n := Nat.div_lt_self (by omega) (by omega)
      rw [decCharsCore_fuel f₁ f₂ (n / 10) (by omega) (by omega)]

/-- The defining recursion of `decChars`. -/
theorem decChars_eq (n : Nat) : decChars n =
    if n < 10 then [Char.ofNat (48 + n)]
    else decChars (n / 10) ++ [Char.ofNat (48 + n % 10)] := by
  show decCharsCore (n + 1) n = _
  rw [show decCharsCore (n + 1) n =
    (if n < 10 then [Char.ofNat (48 + n)]
     else decCharsCore n (n / 10) ++ [Char.ofNat (48 + n % 10)]) from rfl]
  split
  · rfl
  · rename_i hn
    rw [decCharsCore_fuel n (n / 10 + 1) (n / 10) (by omega) (by omega)]
    rfl

/-- Python `f"{n:02d}"` for a nonnegative `n`: decimal digits, left padded
with `'0'` to at least two characters. -/
def fmt02 (n : Nat) : String :=
  if n < 10 then String.mk ('0' :: decChars n) else String.mk (decChars n)

/-- Numeric value of a decimal digit character. -/
def digitVal (c : Char) : Nat := c.toNat - 48

/-- Decode a most-significant-first decimal digit list. -/
def decodeDigits (l : List Char) : Nat :=
  l.foldl (fun a c => 10 * a + digitVal c) 0

theorem digitVal_ofNat {d : Nat} (h : d < 10) :
    digitVal (Char.ofNat (48 + d)) = d := by
  interval_cases d <;> decide

theorem decodeDigits_append (l : List Char) (c : Char) :
    decodeDigits (l ++ [c]) = 10 * decodeDigits l + digitVal c := by
  simp [decodeDigits]

theorem foldl_decode_shift (l : List Char) (a : Nat) :
    l.foldl (fun a c => 10 * a + digitVal c) a =
      a * 10 ^ l.length + decodeDigits l := by
  induction l generalizing a with
  | nil => simp [decodeDigits]
  | cons c cs ih =>
    simp only [List.foldl_cons, decodeDigits]
    rw [ih, ih (10 * 0 + digitVal c)]
    simp only [List.length_cons]
    ring

theorem decodeDigits_decChars (n : Nat) : decodeDigits (decChars n) = n := by
  induction n using Nat.strong_induction_on with
  | _ n ih =>
    rw [decChars_eq]
    by_cases h : n < 10
    · simp only [h, if_true]
      simp [decodeDigits, digitVal_ofNat h]
    · simp only [if_neg h]
      rw [decodeDigits_append, ih (n / 10) (Nat.div_lt_self (by omega) (by omega)),
        digitVal_ofNat (Nat.mod_lt _ (by omega))]
      omega

theorem decChars_ne_nil (n : Nat) : decChars n ≠ [] := by
  rw [decChars_eq]
  split <;> simp

/-- Every character emitted by `decChars` is a decimal digit. -/
theorem decChars_isDigit (n : Nat) : ∀ c ∈ decChars n, c.isDigit = true := by
  induction n using Nat.strong_induction_on with
  | _ n ih =>
    rw [decChars_eq]
    by_cases h : n < 10
    · simp only [if_pos h, List.mem_singleton]
      rintro c rfl
      interval_cases n <;> decide
    · simp only [if_neg h, List.mem_append, List.mem_singleton]
      rintro c (hc | rfl)
      · exact ih (n / 10) (Nat.div_lt_self (by omega) (by omega)) c hc
      · have hlt : n % 10 < 10 := Nat.mod_lt _ (by omega)
        set d := n % 10 with hd
        interval_cases d <;> decide

/-- Characters of `fmt02 n` are all decimal digits. -/
theorem fmt02_isDigit (n : Nat) : ∀ c ∈ (fmt02 n).data, c.isDigit = true := by
  unfold fmt02
  split
  · intro c hc
    rcases List.mem_cons.mp hc with rfl | h
    · decide
    · exact decChars_isDigit n c h
  · exact decChars_isDigit n

theorem decodeDigits_fmt02 (n : Nat) : decodeDigits (fmt02 n).data = n := by
  unfold fmt02
  split
  · show decodeDigits ('0' :: decChars n) = n
    have : decodeDigits ('0' :: decChars n) =
        (decChars n).foldl (fun a c => 10 * a + digitVal c) (10 * 0 + digitVal '0') := by
      simp [decodeDigits]
    rw [this]
    have h0 : (10 * 0 + digitVal '0') = 0 := by decide
    rw [h0]
    exact decodeDigits_decChars n
  · exact decodeDigits_decChars n

theorem fmt02_injective : Function.Injective fmt02 := by
  intro a b h
  have := decodeDigits_fmt02 a
  rw [h, decodeDigits_fmt02] at this
  omega

/-! ### File-name building blocks of `ScreenshotPipeline.analyze`

From `src/screenshots/screenshot_pipeline.py`:
temp names are `f"_temp_{result['rank']:02d}_{original_path.stem}.png"`,
final names are `f"{result['rank']:02d}_{title_slug}.png"` where the slug is
the title with spaces replaced by underscores, quotes removed, and only
alphanumeric/underscore characters kept.
-/

/-- Python `pathlib.PurePath.stem` on a file name: the name minus its suffix,
where a suffix exists only when the last dot is neither the first nor the
last character. -/
def stemData (l : List Char) : List Char :=
  match l.reverse.findIdx? (fun c => c == '.') with
  | none => l
  | some r =>
    let i := l.length - 1 - r
    if 0 < i ∧ i < l.length - 1 then l.take i else l

/-- `pathlib.Path.stem` of a file name. -/
def stem (s : String) : String := String.mk (stemData s.data)

/-- The title slug of `ScreenshotPipeline.analyze`:
`title.replace(' ', '_').replace('"', '').replace("'", '')` followed by
keeping only the characters that satisfy `isalnum` or are `'_'`.
(Python `isalnum` is Unicode-aware; only its ASCII behaviour matters here
and is modelled by `Char.isAlphanum`.) -/
def slugify (t : String) : String :=
  let s1 := t.data.map (fun c => if c = ' ' then '_' else c)
  let s2 := s1.filter (fun c => c ≠ '"')
  let s3 := s2.filter (fun c => c ≠ '\'')
  String.mk (s3.filter (fun c => c.isAlphanum || c = '_'))

/-- One record of the oracle's (or fallback's) ranked response, as consumed
by `ScreenshotPipeline.analyze`. -/
structure RankResult where
  original_name : String
  rank : Nat
  rank_reason : String
  hero_shot : Bool
  title : String
  subtitle : String
  detected_content : List String
  confidence : ℚ
deriving DecidableEq

/-- The temporary name of the first rename pass:
`f"_temp_{result['rank']:02d}_{original_path.stem}.png"`. -/
def tempName (r : RankResult) (originalName : String) : String :=
  "_temp_" ++ fmt02 r.rank ++ "_" ++ stem originalName ++ ".png"

/-- The final name of the second rename pass:
`f"{result['rank']:02d}_{title_slug}.png"`. -/
def finalName (r : RankResult) : String :=
  fmt02 r.rank ++ "_" ++ slugify r.title ++ ".png"

/-- Does a file name start with the reserved marker `_temp_` of the rename
protocol's intermediate pass? -/
def isTempNamed (s : String) : Bool := "_temp_".data.isPrefixOf s.data

theorem isTempNamed_tempName (r : RankResult) (f : String) :
    isTempNamed (tempName r f) = true := by
  have : (tempName r f).data = "_temp_".data ++
      (fmt02 r.rank ++ "_" ++ stem f ++ ".png").data := by
    simp [tempName, String.data_append]
  simp [isTempNamed, this]

theorem fmt02_data_ne_nil (n : Nat) : (fmt02 n).data ≠ [] := by
  unfold fmt02
  split
  · simp
  · simpa using decChars_ne_nil n

theorem isTempNamed_finalName (r : RankResult) :
    isTempNamed (finalName r) = false := by
  have hdata : (finalName r).data =
      (fmt02 r.rank).data ++ ("_" ++ slugify r.title ++ ".png").data := by
    simp [finalName, String.data_append]
  rcases hl : (fmt02 r.rank).data with _ | ⟨c, cs⟩
  · exact absurd hl (fmt02_data_ne_nil r.rank)
  · have hc : c.isDigit = true := fmt02_isDigit r.rank c (by rw [hl]; exact List.mem_cons_self _ _)
    rw [isTempNamed, hdata, hl]
    by_contra hb
    have hpre : "_temp_".data <+: c :: (cs ++ ("_" ++ slugify r.title ++ ".png").data) := by
      have := Bool.not_eq_false _ |>.mp hb
      simpa using this
    rcases hpre with ⟨t, ht⟩
    have hcc : c = '_' := by
      have := congrArg (fun l => l.head?) ht
      simpa using this.symm
    subst hcc
    simp at hc

/-- Extracting the leading digit run of a name that starts with a formatted
number followed by an underscore recovers exactly that number's digits. -/
theorem takeWhile_digits_append (l rest : List Char) (hl : ∀ c ∈ l, c.isDigit = true) :
    (l ++ '_' :: rest).takeWhile (fun c => c.isDigit) = l := by
  induction l with
  | nil => simp
  | cons c cs ih =>
    have hc := hl c (List.mem_cons_self _ _)
    simp only [List.cons_append, List.takeWhile_cons, hc]
    simp [ih (fun d hd => hl d (List.mem_cons_of_mem _ hd))]

theorem finalName_rank_injective (r₁ r₂ : RankResult)
    (h : finalName r₁ = finalName r₂) : r₁.rank = r₂.rank := by
  have hdata : (finalName r₁).data = (finalName r₂).data := by rw [h]
  have hexp : ∀ r : RankResult, (finalName r).data =
      (fmt02 r.rank).data ++ '_' :: (slugify r.title ++ ".png").data := by
    intro r
    simp [finalName, String.data_append]
  rw [hexp r₁, hexp r₂] at hdata
  have h₁ := takeWhile_digits_append (fmt02 r₁.rank).data
    (slugify r₁.title ++ ".png").data (fmt02_isDigit r₁.rank)
  have h₂ := takeWhile_digits_append (fmt02 r₂.rank).data
    (slugify r₂.title ++ ".png").data (fmt02_isDigit r₂.rank)
  have : (fmt02 r₁.rank).data = (fmt02 r₂.rank).data := by
    rw [← h₁, ← h₂, hdata]
  have hdec := decodeDigits_fmt02 r₁.rank
  rw [this, decodeDigits_fmt02] at hdec
  omega

theorem tempName_rank_injective (r₁ r₂ : RankResult) (f₁ f₂ : String)
    (h : tempName r₁ f₁ = tempName r₂ f₂) : r₁.rank = r₂.rank := by
  have hexp : ∀ (r : RankResult) (f : String), (tempName r f).data =
      "_temp_".data ++ ((fmt02 r.rank).data ++ '_' :: (stem f ++ ".png").data) := by
    intro r f
    simp [tempName, String.data_append]
  have hdata : (tempName r₁ f₁).data = (tempName r₂ f₂).data := by rw [h]
  rw [hexp, hexp] at hdata
  have hdata' := List.append_cancel_left hdata
  have h₁ := takeWhile_digits_append (fmt02 r₁.rank).data
    (stem f₁ ++ ".png").data (fmt02_isDigit r₁.rank)
  have h₂ := takeWhile_digits_append (fmt02 r₂.rank).data
    (stem f₂ ++ ".png").data (fmt02_isDigit r₂.rank)
  have : (fmt02 r₁.rank).data = (fmt02 r₂.rank).data := by
    rw [← h₁, ← h₂, hdata']
  have hdec := decodeDigits_fmt02 r₁.rank
  rw [this, decodeDigits_fmt02] at hdec
  omega

/-! ### Code-point lexicographic order on strings

Python compares `pathlib.Path` objects (and strings) by code-point
lexicographic order of the underlying string.  We define the boolean
comparison directly on the character lists so that it evaluates inside the
kernel, and prove the totality/transitivity needed for sorting lemmas.
-/

/-- Lexicographic less-or-equal on character lists by code point. -/
def leChars : List Char → List Char → Bool
  | [], _ => true
  | _ :: _, [] => false
  | a :: as, b :: bs => if a < b then true else if b < a then false else leChars as bs

/-- Python string/path less-or-equal. -/
def pyLe (a b : String) : Bool := leChars a.data b.data

theorem leChars_total : ∀ as bs : List Char, leChars as bs = true ∨ leChars bs as = true
  | [], _ => Or.inl rfl
  | _ :: _, [] => Or.inr rfl
  | a :: as, b :: bs => by
    rcases lt_trichotomy a b with h | h | h
    · left
      simp [leChars, h]
    · subst h
      rcases leChars_total as bs with h' | h'
      · left
        simp [leChars, h']
      · right
        simp [leChars, h']
    · right
      simp [leChars, h]

theorem leChars_trans : ∀ as bs cs : List Char,
    leChars as bs = true → leChars bs cs = true → leChars as cs = true
  | [], _, _, _, _ => rfl
  | _ :: _, [], _, h, _ => by simp [leChars] at h
  | _ :: _, _ :: _, [], _, h => by simp [leChars] at h
  | a :: as, b :: bs, c :: cs, h₁, h₂ => by
    simp only [leChars] at h₁ h₂ ⊢
    by_cases hab : a < b
    · by_cases hbc : b < c
      · simp [lt_trans hab hbc]
      · by_cases hcb : c < b
        · simp [hbc, hcb] at h₂
        · have : b = c := le_antisymm (not_lt.mp hcb) (not_lt.mp hbc)
          subst this
          simp [hab]
    · by_cases hba : b < a
      · simp [hab, hba] at h₁
      · have : a = b := le_antisymm (not_lt.mp hba) (not_lt.mp hab)
        subst this
        by_cases hbc : a < c
        · simp [hbc]
        · by_cases hcb : c < a
          · simp [hbc, hcb] at h₂
          · have : a = c := le_antisymm (not_lt.mp hcb) (not_lt.mp hbc)
            subst this
            simp only [lt_irrefl, if_false] at h₁ h₂ ⊢
            exact leChars_trans as bs cs h₁ h₂

theorem pyLe_total (a b : String) : pyLe a b = true ∨ pyLe b a = true :=
  leChars_total a.data b.data

theorem pyLe_trans {a b c : String} (h₁ : pyLe a b = true) (h₂ : pyLe b c = true) :
    pyLe a c = true :=
  leChars_trans a.data b.data c.data h₁ h₂


/-! ### The oracle fallback of `VisionAnalyzer.analyze_and_rank_screenshots`

From `src/screenshots/vision_analyzer.py`, lines 180–195: when the API call
(or response parsing) raises, the method returns one record per input path,
iterating `enumerate(sorted(image_paths), 1)`.  `sorted` on `pathlib.Path`
objects is the stable ascending sort by the full path string (code-point
lexicographic on POSIX); each record's `original_name` is `img_path.name`,
the last path component.
-/

/-- Last component of a (slash-separated, non-trailing-slash) path:
`pathlib.Path.name`. -/
def pathName (p : String) : String :=
  String.mk ((p.data.reverse.takeWhile (fun c => c ≠ '/')).reverse)

/-- Python `sorted` on paths: stable ascending sort by the path string
(code-point lexicographic order, `pyLe`). -/
def sortedPaths (paths : List String) : List String :=
  List.insertionSort (fun a b => pyLe a b = true) paths

/-- The fallback list built in the `except` branch of
`analyze_and_rank_screenshots`. -/
def fallbackRanking (image_paths : List String) : List RankResult :=
  ((sortedPaths image_paths).enumFrom 1).map (fun ic =>
    { original_name := pathName ic.2
      rank := ic.1
      rank_reason := "Fallback alphabetical ordering (API error)"
      hero_shot := ic.1 == 1
      title := "Get Hooked!"
      subtitle := "Your intelligent fishing companion"
      detected_content := ["unknown"]
      confidence := 0 })

/-! ### Fallback properties (claim C1) -/

theorem fallbackRanking_map_original_name (paths : List String) :
    (fallbackRanking paths).map RankResult.original_name =
      (sortedPaths paths).map pathName := by
  unfold fallbackRanking
  rw [List.map_map]
  have : (RankResult.original_name ∘ fun ic : Nat × String =>
      ({ original_name := pathName ic.2
         rank := ic.1
         rank_reason := "Fallback alphabetical ordering (API error)"
         hero_shot := ic.1 == 1
         title := "Get Hooked!"
         subtitle := "Your intelligent fishing companion"
         detected_content := ["unknown"]
         confidence := 0 } : RankResult)) = (fun ic => pathName ic.2) := rfl
  rw [this]
  have h2 : (fun ic : Nat × String => pathName ic.2) = pathName ∘ Prod.snd := rfl
  rw [h2, ← List.map_map, List.enumFrom_map_snd]

theorem fallbackRanking_map_rank (paths : List String) :
    (fallbackRanking paths).map RankResult.rank = List.range' 1 paths.length := by
  unfold fallbackRanking
  rw [List.map_map]
  have : (RankResult.rank ∘ fun ic : Nat × String =>
      ({ original_name := pathName ic.2
         rank := ic.1
         rank_reason := "Fallback alphabetical ordering (API error)"
         hero_shot := ic.1 == 1
         title := "Get Hooked!"
         subtitle := "Your intelligent fishing companion"
         detected_content := ["unknown"]
         confidence := 0 } : RankResult)) = Prod.fst := rfl
  rw [this, List.enumFrom_map_fst]
  congr 1
  exact ((List.perm_insertionSort _ paths).length_eq)

/-- Claim C1, amended: on any non-empty input, the fallback of
`analyze_and_rank_screenshots` yields exactly one record per input path, in
ascending order of the full path string (which is ascending order of the
file name whenever all inputs lie in one directory), with ranks forming the
dense sequence `1..N`, `hero_shot` true exactly on the rank-1 record, the
fixed generic title/subtitle, fallback rank reason, and confidence `0`. -/
theorem fallback_ranking_spec (paths : List String) (hne : paths ≠ []) :
    (fallbackRanking paths).length = paths.length ∧
    (fallbackRanking paths).map RankResult.original_name =
      (sortedPaths paths).map pathName ∧
    List.Perm (sortedPaths paths) paths ∧
    List.Pairwise (fun a b => pyLe a b = true) (sortedPaths paths) ∧
    (fallbackRanking paths).map RankResult.rank = List.range' 1 paths.length ∧
    (∀ r ∈ fallbackRanking paths, (r.hero_shot = true ↔ r.rank = 1)) ∧
    (∀ r ∈ fallbackRanking paths,
      r.title = "Get Hooked!" ∧
      r.subtitle = "Your intelligent fishing companion" ∧
      r.rank_reason = "Fallback alphabetical ordering (API error)" ∧
      r.confidence = 0) ∧
    (∃ r ∈ fallbackRanking paths, r.rank = 1) := by
  haveI htot : IsTotal String (fun a b => pyLe a b = true) := ⟨pyLe_total⟩
  haveI htr : IsTrans String (fun a b => pyLe a b = true) :=
    ⟨fun _ _ _ => pyLe_trans⟩
  refine ⟨?_, fallbackRanking_map_original_name paths, List.perm_insertionSort _ paths,
    List.sorted_insertionSort _ paths, fallbackRanking_map_rank paths, ?_, ?_, ?_⟩
  · have h := congrArg List.length (fallbackRanking_map_rank paths)
    simpa using h
  · intro r hr
    unfold fallbackRanking at hr
    rcases List.mem_map.mp hr with ⟨ic, _, rfl⟩
    simp
  · intro r hr
    unfold fallbackRanking at hr
    rcases List.mem_map.mp hr with ⟨ic, _, rfl⟩
    exact ⟨rfl, rfl, rfl, rfl⟩
  · have h1 : (1 : Nat) ∈ (fallbackRanking paths).map RankResult.rank := by
      rw [fallbackRanking_map_rank paths]
      have : paths.length ≠ 0 := fun h => hne (List.length_eq_zero.mp h)
      rw [List.mem_range']
      exact ⟨0, by omega, by omega⟩
    rcases List.mem_map.mp h1 with ⟨r, hr, hrk⟩
    exact ⟨r, hr, hrk⟩

/-- Witness: the amended C1 theorem applied to the concrete input
`["b.png", "a.png"]`. -/
theorem fallback_ranking_spec_witness :
    (["b.png", "a.png"] : List String) ≠ [] ∧
    ((fallbackRanking ["b.png", "a.png"]).length = (["b.png", "a.png"] : List String).length ∧
    (fallbackRanking ["b.png", "a.png"]).map RankResult.original_name =
      (sortedPaths ["b.png", "a.png"]).map pathName ∧
    List.Perm (sortedPaths ["b.png", "a.png"]) ["b.png", "a.png"] ∧
    List.Pairwise (fun a b => pyLe a b = true) (sortedPaths ["b.png", "a.png"]) ∧
    (fallbackRanking ["b.png", "a.png"]).map RankResult.rank =
      List.range' 1 (["b.png", "a.png"] : List String).length ∧
    (∀ r ∈ fallbackRanking ["b.png", "a.png"], (r.hero_shot = true ↔ r.rank = 1)) ∧
    (∀ r ∈ fallbackRanking ["b.png", "a.png"],
      r.title = "Get Hooked!" ∧
      r.subtitle = "Your intelligent fishing companion" ∧
      r.rank_reason = "Fallback alphabetical ordering (API error)" ∧
      r.confidence = 0) ∧
    (∃ r ∈ fallbackRanking ["b.png", "a.png"], r.rank = 1)) :=
  ⟨by decide, fallback_ranking_spec ["b.png", "a.png"] (by decide)⟩

/-- Counterexample to claim C1 as stated: with inputs from two different
directories, the fallback orders records by the full path string, not
alphabetically by file name — sorting `["b/a.png", "a/z.png"]` puts name
`"z.png"` before name `"a.png"`. -/
theorem fallback_filename_order_counterexample :
    (fallbackRanking ["b/a.png", "a/z.png"]).map RankResult.original_name =
      ["z.png", "a.png"] ∧
    pyLe "z.png" "a.png" = false := by
  constructor
  · rfl
  · rfl

/-! ### The two-pass rename of `ScreenshotPipeline.analyze`

From `src/screenshots/screenshot_pipeline.py`, lines 164–243 (the
auto-ordering branch).  The platform directory is modelled as the list of
its (image) file names; `shutil.move` replaces an existing destination and
fails on a missing source.  `normalize_whitespace` maps every character of
Unicode category `Zs`, `Zl` or `Zp` to a plain space.
-/

/-- Does the character belong to the Unicode space categories `Zs`, `Zl`,
`Zp` (the categories tested by `unicodedata.category(c) in ('Zs','Zl','Zp')`)? -/
def isSpaceSep (c : Char) : Bool :=
  c.toNat == 0x20 || c.toNat == 0xA0 || c.toNat == 0x1680 ||
  (0x2000 ≤ c.toNat && c.toNat ≤ 0x200A) ||
  c.toNat == 0x2028 || c.toNat == 0x2029 || c.toNat == 0x202F ||
  c.toNat == 0x205F || c.toNat == 0x3000

/-- `normalize_whitespace` of `ScreenshotPipeline.analyze`: every Unicode
space-category character becomes a plain `' '`. -/
def normWS (s : String) : String :=
  String.mk (s.data.map (fun c => if isSpaceSep c then ' ' else c))

/-- `shutil.move src dst` on a directory of names: fails (raises) when the
source is absent; otherwise removes the source, replaces any existing file
at the destination, and creates the destination. -/
def fsMove (fs : List String) (src dst : String) : Option (List String) :=
  if src ∈ fs then some (dst :: (fs.erase src).filter (fun n => n ≠ dst)) else none

/-- First rename pass: for each ranked result in order, look up the on-disk
file whose whitespace-normalized name equals the normalized
`original_name` among the not-yet-matched files (`file_map`); skip the
record with a warning when there is none; otherwise move the file to its
temp name and record the mapping. Returns the directory contents and the
`temp_mappings` list. -/
def pass1 : List RankResult → List String → List String →
    Option (List String × List (RankResult × String × String))
  | [], _, fs => some (fs, [])
  | r :: rs, fm, fs =>
    match fm.find? (fun f => normWS f == normWS r.original_name) with
    | none => pass1 rs fm fs
    | some f =>
      match fsMove fs f (tempName r f) with
      | none => none
      | some fs' =>
        match pass1 rs (fm.erase f) fs' with
        | none => none
        | some (fs'', maps) => some (fs'', (r, tempName r f, f) :: maps)

/-- Second rename pass: move every temp name to its final
rank-prefixed title-slug name. -/
def pass2 : List (RankResult × String × String) → List String → Option (List String)
  | [], fs => some fs
  | (r, temp, _) :: ms, fs =>
    match fsMove fs temp (finalName r) with
    | none => none
    | some fs' => pass2 ms fs'

/-- One persisted `ScreenshotConfig` entry.  The ranking fields are absent
(`none`) in preserve-names runs. -/
structure ScreenshotConfig where
  file : String
  original_name : String
  rank : Option Nat
  rank_reason : Option String
  hero_shot : Option Bool
  title : String
  subtitle : String
  detected_content : List String
  confidence : ℚ
deriving DecidableEq

/-- The config entry built for a matched record in the auto-ordering branch
of `analyze`. -/
def mkAutoConfig (r : RankResult) : ScreenshotConfig :=
  { file := finalName r
    original_name := r.original_name
    rank := some r.rank
    rank_reason := some r.rank_reason
    hero_shot := some r.hero_shot
    title := r.title
    subtitle := r.subtitle
    detected_content := r.detected_content
    confidence := r.confidence }

/-- The auto-ordering branch of `analyze` for one platform directory:
two-pass rename followed by building the platform's screenshot list from
the `temp_mappings`.  `none` models an uncaught exception (a failed
`shutil.move`). -/
def analyzePlatform (files : List String) (results : List RankResult) :
    Option (List String × List ScreenshotConfig) :=
  match pass1 results files files with
  | none => none
  | some (fs1, maps) =>
    match pass2 maps fs1 with
    | none => none
    | some fs2 => some (fs2, maps.map (fun m => mkAutoConfig m.1))

/-- The dynamic matching precondition of the rename protocol: `f` is the
unique file of `fm` whose normalized name equals the record's normalized
`original_name`. -/
def MatchIn (fm : List String) (r : RankResult) (f : String) : Prop :=
  f ∈ fm ∧ normWS f = normWS r.original_name ∧
    ∀ g ∈ fm, normWS g = normWS r.original_name → g = f

theorem forall₂_mem_imp {α β : Type} {R S : α → β → Prop} {l₁ : List α} {l₂ : List β}
    (h : List.Forall₂ R l₁ l₂) (himp : ∀ a b, b ∈ l₂ → R a b → S a b) :
    List.Forall₂ S l₁ l₂ := by
  induction h with
  | nil => exact List.Forall₂.nil
  | cons hab _ ih =>
    refine List.Forall₂.cons (himp _ _ (List.mem_cons_self _ _) hab) (ih ?_)
    intro a b hb hr
    exact himp a b (List.mem_cons_of_mem _ hb) hr

theorem mem_right_of_forall₂ {α β : Type} {R : α → β → Prop} {l₁ : List α} {l₂ : List β}
    (h : List.Forall₂ R l₁ l₂) {b : β} (hb : b ∈ l₂) : ∃ a ∈ l₁, R a b := by
  induction h with
  | nil => cases hb
  | cons hab _ ih =>
    rcases List.mem_cons.mp hb with rfl | hb'
    · exact ⟨_, List.mem_cons_self _ _, hab⟩
    · rcases ih hb' with ⟨a, ha, har⟩
      exact ⟨a, List.mem_cons_of_mem _ ha, har⟩

theorem nodup_map_mono {α β γ : Type} {l : List α} {f : α → β} {g : α → γ}
    (hfg : ∀ x y, f x = f y → g x = g y) (h : (l.map g).Nodup) : (l.map f).Nodup := by
  induction l with
  | nil => simp
  | cons a l ih =>
    simp only [List.map_cons, List.nodup_cons] at h ⊢
    refine ⟨?_, ih h.2⟩
    intro hmem
    rcases List.mem_map.mp hmem with ⟨x, hx, hfx⟩
    exact h.1 (List.mem_map.mpr ⟨x, hx, hfg x a hfx⟩)

theorem diff_self_eq_nil {α : Type} [DecidableEq α] : ∀ l : List α, l.diff l = []
  | [] => rfl
  | a :: l => by
    rw [List.diff_cons, List.erase_cons_head]
    exact diff_self_eq_nil l

theorem find?_eq_some_of_unique {fm : List String} {r : RankResult} {f : String}
    (hm : MatchIn fm r f) :
    fm.find? (fun g => normWS g == normWS r.original_name) = some f := by
  obtain ⟨hmem, heq, huniq⟩ := hm
  rcases h : fm.find? (fun g => normWS g == normWS r.original_name) with _ | g
  · exfalso
    have := List.find?_eq_none.mp h f hmem
    simp [heq] at this
  · have hpg := List.find?_some h
    have hgm := List.mem_of_find?_eq_some h
    have : normWS g = normWS r.original_name := by simpa using hpg
    rw [huniq g hgm this]

/-- Specification of the first rename pass: under a unique matching of
records to distinct on-disk files, with temp names pairwise distinct and
absent from the directory, the pass succeeds, records exactly the
zipped mappings, and leaves the directory holding the temp names plus the
unmatched files. -/
theorem pass1_spec (results : List RankResult) :
    ∀ (ms fm fs : List String),
    List.Forall₂ (MatchIn fm) results ms →
    ms.Nodup → fm.Nodup → fs.Nodup →
    (∀ f ∈ fm, f ∈ fs) →
    ((results.zip ms).map (fun p => tempName p.1 p.2)).Nodup →
    (∀ t ∈ (results.zip ms).map (fun p => tempName p.1 p.2), t ∉ fs) →
    ∃ fs', pass1 results fm fs =
        some (fs', (results.zip ms).map (fun p => (p.1, tempName p.1 p.2, p.2))) ∧
      List.Perm fs'
        ((results.zip ms).map (fun p => tempName p.1 p.2) ++ fs.diff ms) ∧
      fs'.Nodup := by
  induction results with
  | nil =>
    intro ms fm fs hf _ _ hfsnd _ _ _
    have hms : ms = [] := (List.forall₂_nil_left_iff.mp hf)
    subst hms
    exact ⟨fs, rfl, by simp, hfsnd⟩
  | cons r rs ih =>
    intro ms fm fs hf hmsnd hfmnd hfsnd hsub htnd htnin
    rcases hf with _ | ⟨hmatch, htail⟩
    rename_i f ms'
    -- `f` is the unique match of `r` in `fm`
    have hfind := find?_eq_some_of_unique hmatch
    obtain ⟨hfmem, hfeq, hfuniq⟩ := hmatch
    have hffs : f ∈ fs := hsub f hfmem
    set temp := tempName r f with htempdef
    have htempzip : temp ∈ ((r :: rs).zip (f :: ms')).map (fun p => tempName p.1 p.2) := by
      simp [htempdef]
    have htempfs : temp ∉ fs := htnin temp htempzip
    -- the move succeeds without clobbering
    have hmv : fsMove fs f temp = some (temp :: fs.erase f) := by
      rw [fsMove, if_pos hffs]
      congr 1
      congr 1
      rw [List.filter_eq_self]
      intro x hx
      have hxfs : x ∈ fs := List.mem_of_mem_erase hx
      simp only [decide_eq_true_eq]
      intro hxeq
      exact htempfs (hxeq ▸ hxfs)
    -- prepare the recursive call
    have hms'fm : ∀ g ∈ ms', g ∈ fm := by
      intro g hg
      rcases mem_right_of_forall₂ htail hg with ⟨a, _, hma⟩
      exact hma.1
    have hfnotms' : f ∉ ms' := (List.nodup_cons.mp hmsnd).1
    have htail' : List.Forall₂ (MatchIn (fm.erase f)) rs ms' := by
      refine forall₂_mem_imp htail ?_
      intro a b hb ⟨hbm, hbe, hbu⟩
      have hbf : b ≠ f := fun h => hfnotms' (h ▸ hb)
      refine ⟨(List.mem_erase_of_ne hbf).mpr hbm, hbe, ?_⟩
      intro g hg hge
      exact hbu g (List.mem_of_mem_erase hg) hge
    have hsub' : ∀ g ∈ fm.erase f, g ∈ temp :: fs.erase f := by
      intro g hg
      have hgf : g ≠ f := (List.Nodup.mem_erase_iff hfmnd).mp hg |>.1
      have hgm : g ∈ fm := List.mem_of_mem_erase hg
      exact List.mem_cons_of_mem _ ((List.mem_erase_of_ne hgf).mpr (hsub g hgm))
    have hzipcons :
        ((r :: rs).zip (f :: ms')).map (fun p => tempName p.1 p.2) =
          temp :: ((rs.zip ms').map (fun p => tempName p.1 p.2)) := by
      simp [htempdef]
    have htnd' : ((rs.zip ms').map (fun p => tempName p.1 p.2)).Nodup := by
      rw [hzipcons] at htnd
      exact (List.nodup_cons.mp htnd).2
    have htempnotintail : temp ∉ (rs.zip ms').map (fun p => tempName p.1 p.2) := by
      rw [hzipcons] at htnd
      exact (List.nodup_cons.mp htnd).1
    have htnin' : ∀ t ∈ (rs.zip ms').map (fun p => tempName p.1 p.2),
        t ∉ temp :: fs.erase f := by
      intro t ht
      have htne : t ≠ temp := fun h => htempnotintail (h ▸ ht)
      have htfs : t ∉ fs := htnin t (by rw [hzipcons]; exact List.mem_cons_of_mem _ ht)
      intro hmem
      rcases List.mem_cons.mp hmem with h | h
      · exact htne h
      · exact htfs (List.mem_of_mem_erase h)
    have hfs'nd : (temp :: fs.erase f).Nodup := by
      rw [List.nodup_cons]
      exact ⟨fun h => htempfs (List.mem_of_mem_erase h), hfsnd.erase f⟩
    obtain ⟨fs'', heq, hperm, hnd⟩ :=
      ih ms' (fm.erase f) (temp :: fs.erase f) htail' (List.nodup_cons.mp hmsnd).2
        (hfmnd.erase f) hfs'nd hsub' htnd' htnin'
    refine ⟨fs'', ?_, ?_, hnd⟩
    · show pass1 (r :: rs) fm fs = _
      simp only [pass1, hfind, ← htempdef, hmv, heq]
      simp [htempdef]
    · -- permutation bookkeeping
      have htempms' : temp ∉ ms' := fun h => htempfs (hsub temp (hms'fm temp h))
      have hdiff : (temp :: fs.erase f).diff ms' = temp :: (fs.erase f).diff ms' := by
        rw [List.cons_diff]
        simp [htempms']
      rw [hdiff] at hperm
      have hstep : List.Perm fs''
          (temp :: ((rs.zip ms').map (fun p => tempName p.1 p.2) ++ (fs.erase f).diff ms')) := by
        refine hperm.trans ?_
        exact List.perm_middle
      rw [hzipcons]
      have : fs.diff (f :: ms') = (fs.erase f).diff ms' := List.diff_cons fs ms' f
      rw [this]
      exact hstep

/-- Specification of the second rename pass: starting from a directory
holding exactly the temp names (plus untouched extra files `acc`), with the
final names pairwise distinct and fresh, the pass succeeds and the
directory ends up holding exactly the final names plus `acc`. -/
theorem pass2_spec (maps : List (RankResult × String × String)) :
    ∀ (fs acc : List String),
    List.Perm fs ((maps.map fun m => m.2.1) ++ acc) →
    (maps.map fun m => m.2.1).Nodup →
    (maps.map fun m => finalName m.1).Nodup →
    (∀ x ∈ maps.map (fun m => finalName m.1), x ∉ (maps.map fun m => m.2.1)) →
    (∀ x ∈ maps.map (fun m => finalName m.1), x ∉ acc) →
    fs.Nodup →
    ∃ fs', pass2 maps fs = some fs' ∧
      List.Perm fs' ((maps.map fun m => finalName m.1) ++ acc) ∧ fs'.Nodup := by
  induction maps with
  | nil =>
    intro fs acc hperm _ _ _ _ hnd
    exact ⟨fs, rfl, by simpa using hperm, hnd⟩
  | cons m ms ih =>
    intro fs acc hperm htnd hfnd hft hfacc hnd
    obtain ⟨r, temp, orig⟩ := m
    simp only [List.map_cons] at hperm htnd hfnd hft hfacc
    have htempfs : temp ∈ fs := hperm.mem_iff.mpr (by simp)
    have hfinew : finalName r ∉ fs := by
      intro hmem
      have := hperm.mem_iff.mp hmem
      simp only [List.cons_append, List.mem_cons, List.mem_append] at this
      rcases this with h | h | h
      · exact hft (finalName r) (List.mem_cons_self _ _) (by simp [h])
      · exact hft (finalName r) (List.mem_cons_self _ _)
          (List.mem_cons_of_mem _ (by simpa using h))
      · exact hfacc (finalName r) (List.mem_cons_self _ _) h
    have hmv : fsMove fs temp (finalName r) = some (finalName r :: fs.erase temp) := by
      rw [fsMove, if_pos htempfs]
      congr 1
      congr 1
      rw [List.filter_eq_self]
      intro x hx
      simp only [decide_eq_true_eq]
      intro hxeq
      exact hfinew (hxeq ▸ List.mem_of_mem_erase hx)
    have hperm' : List.Perm (fs.erase temp) ((ms.map fun m => m.2.1) ++ acc) := by
      have h1 := hperm.erase temp
      rw [List.cons_append, List.erase_cons_head] at h1
      exact h1
    have hperm'' : List.Perm (finalName r :: fs.erase temp)
        ((ms.map fun m => m.2.1) ++ (finalName r :: acc)) := by
      refine (List.Perm.cons _ hperm').trans ?_
      exact List.perm_middle.symm
    have hnd' : (finalName r :: fs.erase temp).Nodup := by
      rw [List.nodup_cons]
      exact ⟨fun h => hfinew (List.mem_of_mem_erase h), hnd.erase temp⟩
    obtain ⟨fs', heq, hpermout, hndout⟩ :=
      ih (finalName r :: fs.erase temp) (finalName r :: acc) hperm''
        (List.nodup_cons.mp htnd).2 (List.nodup_cons.mp hfnd).2
        (fun x hx => fun hmem =>
          hft x (List.mem_cons_of_mem _ hx) (List.mem_cons_of_mem _ hmem))
        (fun x hx => by
          intro hmem
          rcases List.mem_cons.mp hmem with h | h
          · exact (List.nodup_cons.mp hfnd).1 (h ▸ hx)
          · exact hfacc x (List.mem_cons_of_mem _ hx) h)
        hnd'
    refine ⟨fs', ?_, ?_, hndout⟩
    · show pass2 ((r, temp, orig) :: ms) fs = some fs'
      simp only [pass2, hmv]
      exact heq
    · refine hpermout.trans ?_
      exact List.perm_middle

/-- Full specification of the auto-ordering rename-and-configure step of
`analyze`, under the hypotheses of the amended claim C2: distinct unique
matches covering the directory, distinct ranks, and no source file already
carrying the reserved `_temp_` prefix. -/
theorem analyzePlatform_spec (files : List String) (results : List RankResult)
    (ms : List String)
    (hf : List.Forall₂ (MatchIn files) results ms)
    (hmsnd : ms.Nodup)
    (hfnd : files.Nodup)
    (hlen : results.length = files.length)
    (hranks : (results.map RankResult.rank).Nodup)
    (hnotemp : ∀ f ∈ files, isTempNamed f = false) :
    ∃ fs', analyzePlatform files results = some (fs', results.map mkAutoConfig) ∧
      List.Perm fs' (results.map finalName) ∧
      fs'.Nodup ∧
      fs'.length = files.length ∧
      (results.map finalName).Nodup ∧
      (∀ f ∈ fs', isTempNamed f = false) := by
  have hlen2 : results.length = ms.length := hf.length_eq
  have hfstzip : (results.zip ms).map Prod.fst = results :=
    List.map_fst_zip results ms (le_of_eq hlen2)
  have hrankzip : ((results.zip ms).map (fun p => p.1.rank)).Nodup := by
    have : (results.zip ms).map (fun p => p.1.rank) =
        ((results.zip ms).map Prod.fst).map RankResult.rank := by
      rw [List.map_map]
      rfl
    rw [this, hfstzip]
    exact hranks
  have htnd : ((results.zip ms).map (fun p => tempName p.1 p.2)).Nodup :=
    nodup_map_mono (fun x y h => by
      have := tempName_rank_injective x.1 y.1 x.2 y.2 h
      exact this) hrankzip
  have htnin : ∀ t ∈ (results.zip ms).map (fun p => tempName p.1 p.2), t ∉ files := by
    intro t ht htf
    rcases List.mem_map.mp ht with ⟨p, _, rfl⟩
    have h1 := isTempNamed_tempName p.1 p.2
    have h2 := hnotemp _ htf
    rw [h1] at h2
    cases h2
  obtain ⟨fs1, heq1, hperm1, hnd1⟩ :=
    pass1_spec results ms files files hf hmsnd hfnd hfnd (fun f h => h) htnd htnin
  -- all files are matched, so nothing is left behind
  have hmssub : ms ⊆ files := by
    intro g hg
    rcases mem_right_of_forall₂ hf hg with ⟨a, _, hma⟩
    exact hma.1
  have hmsperm : List.Perm ms files := by
    refine (List.subperm_of_subset hmsnd hmssub).perm_of_length_le ?_
    omega
  have hdiffnil : files.diff ms = [] := by
    rw [List.Perm.diff_left files hmsperm]
    exact diff_self_eq_nil files
  rw [hdiffnil, List.append_nil] at hperm1
  -- second pass
  set maps := (results.zip ms).map (fun p => (p.1, tempName p.1 p.2, p.2)) with hmapsdef
  have hmapstemp : maps.map (fun m => m.2.1) =
      (results.zip ms).map (fun p => tempName p.1 p.2) := by
    rw [hmapsdef, List.map_map]
    rfl
  have hmapsfin : maps.map (fun m => finalName m.1) =
      (results.zip ms).map (fun p => finalName p.1) := by
    rw [hmapsdef, List.map_map]
    rfl
  have hfinzip : (results.zip ms).map (fun p => finalName p.1) =
      results.map finalName := by
    have : (results.zip ms).map (fun p => finalName p.1) =
        ((results.zip ms).map Prod.fst).map finalName := by
      rw [List.map_map]
      rfl
    rw [this, hfstzip]
  have hfinnd : ((results.zip ms).map (fun p => finalName p.1)).Nodup :=
    nodup_map_mono (fun x y h => finalName_rank_injective x.1 y.1 h) hrankzip
  have hfinnotin : ∀ x ∈ maps.map (fun m => finalName m.1),
      x ∉ maps.map (fun m => m.2.1) := by
    intro x hx hmem
    rw [hmapsfin] at hx
    rw [hmapstemp] at hmem
    rcases List.mem_map.mp hx with ⟨p, _, rfl⟩
    rcases List.mem_map.mp hmem with ⟨q, _, hq⟩
    have h1 := isTempNamed_tempName q.1 q.2
    rw [hq] at h1
    rw [isTempNamed_finalName p.1] at h1
    cases h1
  obtain ⟨fs2, heq2, hperm2, hnd2⟩ :=
    pass2_spec maps fs1 [] (by rw [hmapstemp, List.append_nil]; exact hperm1)
      (by rw [hmapstemp]; exact htnd)
      (by rw [hmapsfin]; exact hfinnd)
      hfinnotin (by simp) hnd1
  rw [List.append_nil, hmapsfin, hfinzip] at hperm2
  have hcfgs : maps.map (fun m => mkAutoConfig m.1) = results.map mkAutoConfig := by
    rw [hmapsdef, List.map_map]
    have : (results.zip ms).map ((fun m : RankResult × String × String => mkAutoConfig m.1) ∘
        (fun p : RankResult × String => (p.1, tempName p.1 p.2, p.2))) =
        ((results.zip ms).map Prod.fst).map mkAutoConfig := by
      rw [List.map_map]
      rfl
    rw [this, hfstzip]
  refine ⟨fs2, ?_, hperm2, hnd2, ?_, ?_, ?_⟩
  · simp only [analyzePlatform, heq1, heq2, hcfgs]
  · have := hperm2.length_eq
    simp only [List.length_map] at this
    omega
  · rw [← hfinzip]
    exact hfinnd
  · intro f hfmem
    have := hperm2.mem_iff.mp hfmem
    rcases List.mem_map.mp this with ⟨r, _, rfl⟩
    exact isTempNamed_finalName r

instance (fm : List String) (r : RankResult) (f : String) : Decidable (MatchIn fm r f) := by
  unfold MatchIn
  exact inferInstance

/-- Claim C2, amended: given `N` source files, analysis results assigning
`N` distinct ranks whose `original_name` fields match `N` distinct on-disk
files, and — the amendment — no source file already carrying the reserved
`_temp_` prefix, the two-pass rename succeeds, leaving exactly `N` files
under pairwise-distinct final rank-prefixed title-slug names and no file
with the temporary `_temp_` prefix. -/
theorem analyze_rename_bijective
    (files : List String) (results : List RankResult) (ms : List String)
    (hf : List.Forall₂ (MatchIn files) results ms)
    (hmsnd : ms.Nodup) (hfnd : files.Nodup)
    (hlen : results.length = files.length)
    (hranks : (results.map RankResult.rank).Nodup)
    (hnotemp : ∀ f ∈ files, isTempNamed f = false) :
    ∃ fs' cfgs, analyzePlatform files results = some (fs', cfgs) ∧
      fs'.length = files.length ∧
      List.Perm fs' (results.map finalName) ∧
      (results.map finalName).Nodup ∧
      (∀ f ∈ fs', isTempNamed f = false) := by
  obtain ⟨fs', heq, hperm, _, hlen', hfinnd, htempf⟩ :=
    analyzePlatform_spec files results ms hf hmsnd hfnd hlen hranks hnotemp
  exact ⟨fs', results.map mkAutoConfig, heq, hlen', hperm, hfinnd, htempf⟩

/-- Witness: the amended C2 theorem at the concrete directory
`["a.png", "b.png"]` with two ranked records. -/
theorem analyze_rename_bijective_witness :
    (List.Forall₂ (MatchIn ["a.png", "b.png"])
      [{ original_name := "a.png", rank := 1, rank_reason := "hero", hero_shot := true,
         title := "Map View", subtitle := "s", detected_content := [], confidence := 9/10 },
       { original_name := "b.png", rank := 2, rank_reason := "value", hero_shot := false,
         title := "Forecast", subtitle := "t", detected_content := [], confidence := 8/10 }]
      ["a.png", "b.png"]) ∧
    (∃ fs' cfgs, analyzePlatform ["a.png", "b.png"]
        [{ original_name := "a.png", rank := 1, rank_reason := "hero", hero_shot := true,
           title := "Map View", subtitle := "s", detected_content := [], confidence := 9/10 },
         { original_name := "b.png", rank := 2, rank_reason := "value", hero_shot := false,
           title := "Forecast", subtitle := "t", detected_content := [], confidence := 8/10 }] =
          some (fs', cfgs) ∧
      fs'.length = (["a.png", "b.png"] : List String).length ∧
      List.Perm fs'
        ([{ original_name := "a.png", rank := 1, rank_reason := "hero", hero_shot := true,
            title := "Map View", subtitle := "s", detected_content := [], confidence := 9/10 },
          { original_name := "b.png", rank := 2, rank_reason := "value", hero_shot := false,
            title := "Forecast", subtitle := "t", detected_content := [], confidence := 8/10 }].map
          finalName) ∧
      (([{ original_name := "a.png", rank := 1, rank_reason := "hero", hero_shot := true,
           title := "Map View", subtitle := "s", detected_content := [], confidence := 9/10 },
         { original_name := "b.png", rank := 2, rank_reason := "value", hero_shot := false,
           title := "Forecast", subtitle := "t", detected_content := [], confidence := 8/10 }].map
          finalName)).Nodup ∧
      (∀ f ∈ fs', isTempNamed f = false)) :=
  ⟨List.Forall₂.cons (by decide) (List.Forall₂.cons (by decide) List.Forall₂.nil),
   analyze_rename_bijective _ _ ["a.png", "b.png"]
     (List.Forall₂.cons (by decide) (List.Forall₂.cons (by decide) List.Forall₂.nil))
     (by decide) (by decide) rfl (by decide) (by decide)⟩

/-- Counterexample to claim C2 as stated: a source directory may already
contain a file named like a temp name.  Here the first pass clobbers the
source file `"_temp_01_a.png"` and the second pass then fails on a missing
source (`shutil.move` raises), even though all of the claim's stated
hypotheses (distinct ranks, distinct matched files) hold. -/
theorem analyze_rename_counterexample :
    (List.Forall₂ (MatchIn ["_temp_01_a.png", "a.png"])
      [{ original_name := "a.png", rank := 1, rank_reason := "", hero_shot := true,
         title := "T", subtitle := "", detected_content := [], confidence := 0 },
       { original_name := "_temp_01_a.png", rank := 2, rank_reason := "", hero_shot := false,
         title := "U", subtitle := "", detected_content := [], confidence := 0 }]
      ["a.png", "_temp_01_a.png"]) ∧
    (["a.png", "_temp_01_a.png"] : List String).Nodup ∧
    (["_temp_01_a.png", "a.png"] : List String).Nodup ∧
    (([{ original_name := "a.png", rank := 1, rank_reason := "", hero_shot := true,
         title := "T", subtitle := "", detected_content := [], confidence := 0 },
       { original_name := "_temp_01_a.png", rank := 2, rank_reason := "", hero_shot := false,
         title := "U", subtitle := "", detected_content := [], confidence := (0 : ℚ) }].map
        RankResult.rank)).Nodup ∧
    analyzePlatform ["_temp_01_a.png", "a.png"]
      [{ original_name := "a.png", rank := 1, rank_reason := "", hero_shot := true,
         title := "T", subtitle := "", detected_content := [], confidence := 0 },
       { original_name := "_temp_01_a.png", rank := 2, rank_reason := "", hero_shot := false,
         title := "U", subtitle := "", detected_content := [], confidence := 0 }] = none :=
  ⟨List.Forall₂.cons (by decide) (List.Forall₂.cons (by decide) List.Forall₂.nil),
   by decide, by decide, by decide, by decide⟩

/-- Claim C5, amended: after an auto-ordering `analyze` run in which the
oracle's records uniquely match all the directory's files and assign ranks
forming a dense `1..N` permutation (as the fallback always does), every
persisted `ScreenshotConfig.rank` is present, the ranks are pairwise
distinct, and they form a dense `1..N` permutation where `N` is the number
of screenshot entries.  (A preserve-names run stores no ranks at all, and a
non-conforming oracle response is copied into the config unvalidated — see
the counterexample.) -/
theorem analyze_config_ranks_dense
    (files : List String) (results : List RankResult) (ms : List String)
    (hf : List.Forall₂ (MatchIn files) results ms)
    (hmsnd : ms.Nodup) (hfnd : files.Nodup)
    (hlen : results.length = files.length)
    (hdense : List.Perm (results.map RankResult.rank) (List.range' 1 results.length))
    (hnotemp : ∀ f ∈ files, isTempNamed f = false) :
    ∃ fs' cfgs, analyzePlatform files results = some (fs', cfgs) ∧
      cfgs.filterMap ScreenshotConfig.rank = results.map RankResult.rank ∧
      (cfgs.filterMap ScreenshotConfig.rank).length = cfgs.length ∧
      List.Perm (cfgs.filterMap ScreenshotConfig.rank) (List.range' 1 cfgs.length) ∧
      (cfgs.filterMap ScreenshotConfig.rank).Nodup := by
  have hranks : (results.map RankResult.rank).Nodup :=
    hdense.nodup_iff.mpr (List.nodup_range' 1 results.length)
  obtain ⟨fs', heq, _, _, _, _, _⟩ :=
    analyzePlatform_spec files results ms hf hmsnd hfnd hlen hranks hnotemp
  refine ⟨fs', results.map mkAutoConfig, heq, ?_, ?_, ?_, ?_⟩
  · rw [List.filterMap_map]
    have : (ScreenshotConfig.rank ∘ mkAutoConfig) = (some ∘ RankResult.rank) := rfl
    rw [this, List.filterMap_eq_map]
  · rw [List.filterMap_map]
    have : (ScreenshotConfig.rank ∘ mkAutoConfig) = (some ∘ RankResult.rank) := rfl
    rw [this, List.filterMap_eq_map]
    simp
  · rw [List.filterMap_map]
    have h1 : (ScreenshotConfig.rank ∘ mkAutoConfig) = (some ∘ RankResult.rank) := rfl
    rw [h1, List.filterMap_eq_map]
    simpa using hdense
  · rw [List.filterMap_map]
    have h1 : (ScreenshotConfig.rank ∘ mkAutoConfig) = (some ∘ RankResult.rank) := rfl
    rw [h1, List.filterMap_eq_map]
    exact hranks

/-- Witness: the amended C5 theorem at the concrete directory
`["a.png", "b.png"]` with the fallback's own dense ranking. -/
theorem analyze_config_ranks_dense_witness :
    (List.Perm ((fallbackRanking ["a.png", "b.png"]).map RankResult.rank)
      (List.range' 1 (fallbackRanking ["a.png", "b.png"]).length)) ∧
    (∃ fs' cfgs, analyzePlatform ["a.png", "b.png"] (fallbackRanking ["a.png", "b.png"]) =
        some (fs', cfgs) ∧
      cfgs.filterMap ScreenshotConfig.rank =
        (fallbackRanking ["a.png", "b.png"]).map RankResult.rank ∧
      (cfgs.filterMap ScreenshotConfig.rank).length = cfgs.length ∧
      List.Perm (cfgs.filterMap ScreenshotConfig.rank) (List.range' 1 cfgs.length) ∧
      (cfgs.filterMap ScreenshotConfig.rank).Nodup) :=
  ⟨by decide,
   analyze_config_ranks_dense ["a.png", "b.png"] (fallbackRanking ["a.png", "b.png"])
     ["a.png", "b.png"]
     (List.Forall₂.cons (by decide) (List.Forall₂.cons (by decide) List.Forall₂.nil))
     (by decide) (by decide) (by decide) (by decide) (by decide)⟩

/-- Counterexample to claim C5 as stated: `analyze` copies the oracle's
ranks into the persisted config without validation, so an oracle response
assigning rank 1 twice produces a platform config whose ranks are `[1, 1]`
— neither unique nor a dense `1..2` sequence — after a run that completes
without error. -/
theorem analyze_config_ranks_counterexample :
    (analyzePlatform ["a.png", "b.png"]
      [{ original_name := "a.png", rank := 1, rank_reason := "", hero_shot := true,
         title := "T", subtitle := "", detected_content := [], confidence := 0 },
       { original_name := "b.png", rank := 1, rank_reason := "", hero_shot := false,
         title := "U", subtitle := "", detected_content := [], confidence := 0 }]).map
      (fun p => p.2.filterMap ScreenshotConfig.rank) = some [1, 1] ∧
    ¬ ([1, 1] : List Nat).Nodup ∧
    ¬ List.Perm ([1, 1] : List Nat) (List.range' 1 2) := by
  refine ⟨by decide, by decide, ?_⟩
  intro h
  have := h.nodup_iff.mpr (List.nodup_range' 1 2)
  simp at this

theorem pass1_len_le : ∀ (results : List RankResult) (fm fs : List String)
    (fs' : List String) (maps : List (RankResult × String × String)),
    pass1 results fm fs = some (fs', maps) → maps.length ≤ results.length := by
  intro results
  induction results with
  | nil =>
    intro fm fs fs' maps h
    simp only [pass1, Option.some.injEq, Prod.mk.injEq] at h
    simp [← h.2]
  | cons r rs ih =>
    intro fm fs fs' maps h
    simp only [pass1] at h
    rcases hfind : fm.find? (fun f => normWS f == normWS r.original_name) with _ | f <;>
      simp only [hfind] at h
    · have := ih fm fs fs' maps h
      simp only [List.length_cons]
      omega
    · rcases hmv : fsMove fs f (tempName r f) with _ | fs₁ <;> simp only [hmv] at h
      · cases h
      · rcases hrec : pass1 rs (fm.erase f) fs₁ with _ | p <;> simp only [hrec] at h
        · cases h
        · obtain ⟨fs₂, maps'⟩ := p
          simp only [Option.some.injEq, Prod.mk.injEq] at h
          have := ih (fm.erase f) fs₁ fs₂ maps' hrec
          rw [← h.2]
          simp only [List.length_cons]
          omega

theorem pass1_maps_matched : ∀ (results : List RankResult) (fm fs : List String)
    (fs' : List String) (maps : List (RankResult × String × String)),
    pass1 results fm fs = some (fs', maps) →
    ∀ m ∈ maps, m.1 ∈ results ∧ m.2.2 ∈ fm ∧ normWS m.2.2 = normWS m.1.original_name := by
  intro results
  induction results with
  | nil =>
    intro fm fs fs' maps h
    simp only [pass1, Option.some.injEq, Prod.mk.injEq] at h
    rw [← h.2]
    intro m hm
    cases hm
  | cons r rs ih =>
    intro fm fs fs' maps h
    simp only [pass1] at h
    rcases hfind : fm.find? (fun f => normWS f == normWS r.original_name) with _ | f <;>
      simp only [hfind] at h
    · intro m hm
      obtain ⟨h1, h2, h3⟩ := ih fm fs fs' maps h m hm
      exact ⟨List.mem_cons_of_mem _ h1, h2, h3⟩
    · rcases hmv : fsMove fs f (tempName r f) with _ | fs₁ <;> simp only [hmv] at h
      · cases h
      · rcases hrec : pass1 rs (fm.erase f) fs₁ with _ | p <;> simp only [hrec] at h
        · cases h
        · obtain ⟨fs₂, maps'⟩ := p
          simp only [Option.some.injEq, Prod.mk.injEq] at h
          intro m hm
          rw [← h.2] at hm
          rcases List.mem_cons.mp hm with rfl | hm'
          · refine ⟨List.mem_cons_self _ _, List.mem_of_find?_eq_some hfind, ?_⟩
            have := List.find?_some hfind
            simpa using this
          · obtain ⟨h1, h2, h3⟩ := ih (fm.erase f) fs₁ fs₂ maps' hrec m hm'
            exact ⟨List.mem_cons_of_mem _ h1, List.mem_of_mem_erase h2, h3⟩

/-- A record whose normalized `original_name` matches no file of the
(sub-)directory listing is skipped by the first pass: no mapping carries it
and the pass records strictly fewer mappings than there are records. -/
theorem pass1_skips_unmatched (files : List String) (r : RankResult)
    (hno : ∀ f ∈ files, normWS f ≠ normWS r.original_name) :
    ∀ (results : List RankResult) (fm fs : List String)
      (fs' : List String) (maps : List (RankResult × String × String)),
    r ∈ results → (∀ f ∈ fm, f ∈ files) →
    pass1 results fm fs = some (fs', maps) →
    (∀ m ∈ maps, m.1.original_name ≠ r.original_name) ∧
      maps.length < results.length := by
  intro results
  induction results with
  | nil =>
    intro fm fs fs' maps hr
    cases hr
  | cons r' rs ih =>
    intro fm fs fs' maps hr hfmsub h
    have horig : ∀ (fm' : List String), (∀ f ∈ fm', f ∈ files) →
        ∀ (fsa fsb : List String) (mapsx : List (RankResult × String × String)),
        pass1 rs fm' fsa = some (fsb, mapsx) →
        ∀ m ∈ mapsx, m.1.original_name ≠ r.original_name := by
      intro fm' hsub' fsa fsb mapsx hx m hm heqname
      obtain ⟨_, h2, h3⟩ := pass1_maps_matched rs fm' fsa fsb mapsx hx m hm
      exact hno m.2.2 (hsub' _ h2) (by rw [h3, heqname])
    simp only [pass1] at h
    rcases List.mem_cons.mp hr with rfl | hr'
    · -- the head record is the unmatched one: its lookup must fail
      rcases hfind : fm.find? (fun f => normWS f == normWS r.original_name) with _ | f <;>
        simp only [hfind] at h
      · refine ⟨horig fm hfmsub fs fs' maps h, ?_⟩
        have := pass1_len_le rs fm fs fs' maps h
        simp only [List.length_cons]
        omega
      · exfalso
        have h1 := List.find?_some hfind
        have h2 := List.mem_of_find?_eq_some hfind
        exact hno f (hfmsub f h2) (by simpa using h1)
    · rcases hfind : fm.find? (fun f => normWS f == normWS r'.original_name) with _ | f <;>
        rw [hfind] at h
      · obtain ⟨ha, hb⟩ := ih fm fs fs' maps hr' hfmsub h
        refine ⟨ha, ?_⟩
        simp only [List.length_cons]
        omega
      · rcases hmv : fsMove fs f (tempName r' f) with _ | fs₁ <;> simp only [hmv] at h
        · cases h
        · rcases hrec : pass1 rs (fm.erase f) fs₁ with _ | p <;> simp only [hrec] at h
          · cases h
          · obtain ⟨fs₂, maps'⟩ := p
            simp only [Option.some.injEq, Prod.mk.injEq] at h
            have hsub' : ∀ g ∈ fm.erase f, g ∈ files :=
              fun g hg => hfmsub g (List.mem_of_mem_erase hg)
            obtain ⟨ha, hb⟩ := ih (fm.erase f) fs₁ fs₂ maps' hr' hsub' hrec
            constructor
            · intro m hm
              rw [← h.2] at hm
              rcases List.mem_cons.mp hm with rfl | hm'
              · -- the head's matched file is in the directory, so its
                -- original name cannot normalize like the missing one
                intro heqname
                have h1 := List.find?_some hfind
                have h2 := List.mem_of_find?_eq_some hfind
                have : normWS f = normWS r'.original_name := by simpa using h1
                exact hno f (hfmsub f h2) (by rw [this, heqname])
              · exact ha m hm'
            · rw [← h.2]
              simp only [List.length_cons]
              omega

/-- Claim C9: during auto-ordering analysis, a ranking record whose
`original_name` matches no on-disk file even after whitespace
normalization is skipped — no rename is performed for it, no config entry
is written for it, and the platform config ends up with strictly fewer
entries than the oracle returned records. -/
theorem analyze_unmatched_record_skipped
    (files : List String) (results : List RankResult) (r : RankResult)
    (hr : r ∈ results)
    (hno : ∀ f ∈ files, normWS f ≠ normWS r.original_name) :
    (∀ fs1 maps, pass1 results files files = some (fs1, maps) →
      (∀ m ∈ maps, m.1.original_name ≠ r.original_name) ∧
        maps.length < results.length) ∧
    (∀ fs' cfgs, analyzePlatform files results = some (fs', cfgs) →
      (∀ c ∈ cfgs, c.original_name ≠ r.original_name) ∧
        cfgs.length < results.length) := by
  constructor
  · intro fs1 maps h
    exact pass1_skips_unmatched files r hno results files files fs1 maps hr
      (fun f hf => hf) h
  · intro fs' cfgs h
    simp only [analyzePlatform] at h
    rcases h1 : pass1 results files files with _ | p <;> simp only [h1] at h
    · cases h
    · obtain ⟨fs1, maps⟩ := p
      rcases h2 : pass2 maps fs1 with _ | fs2 <;> simp only [h2] at h
      · cases h
      · simp only [Option.some.injEq, Prod.mk.injEq] at h
        obtain ⟨ha, hb⟩ := pass1_skips_unmatched files r hno results files files fs1 maps hr
          (fun f hf => hf) h1
        constructor
        · intro c hc
          rw [← h.2] at hc
          rcases List.mem_map.mp hc with ⟨m, hm, rfl⟩
          exact ha m hm
        · rw [← h.2]
          simpa using hb

/-- Witness: the C9 theorem at a concrete one-file directory with a second
record that matches nothing; the run completes and stores one entry for
two oracle records. -/
theorem analyze_unmatched_record_skipped_witness :
    (∀ f ∈ ["a.png"], normWS f ≠ normWS "missing.png") ∧
    (analyzePlatform ["a.png"]
      [{ original_name := "a.png", rank := 1, rank_reason := "", hero_shot := true,
         title := "T", subtitle := "", detected_content := [], confidence := 0 },
       { original_name := "missing.png", rank := 2, rank_reason := "", hero_shot := false,
         title := "U", subtitle := "", detected_content := [], confidence := 0 }]).isSome = true ∧
    (∀ fs' cfgs, analyzePlatform ["a.png"]
      [{ original_name := "a.png", rank := 1, rank_reason := "", hero_shot := true,
         title := "T", subtitle := "", detected_content := [], confidence := 0 },
       { original_name := "missing.png", rank := 2, rank_reason := "", hero_shot := false,
         title := "U", subtitle := "", detected_content := [], confidence := 0 }] =
        some (fs', cfgs) →
      (∀ c ∈ cfgs, c.original_name ≠ "missing.png") ∧ cfgs.length < 2) :=
  ⟨by decide, by decide,
   (analyze_unmatched_record_skipped ["a.png"]
     [{ original_name := "a.png", rank := 1, rank_reason := "", hero_shot := true,
        title := "T", subtitle := "", detected_content := [], confidence := 0 },
      { original_name := "missing.png", rank := 2, rank_reason := "", hero_shot := false,
        title := "U", subtitle := "", detected_content := [], confidence := 0 }]
     { original_name := "missing.png", rank := 2, rank_reason := "", hero_shot := false,
       title := "U", subtitle := "", detected_content := [], confidence := 0 }
     (by decide) (by decide)).2⟩

/-! ### The text fitter of `ImageProcessor` (ios-tools image_processor.py)

`calculate_optimal_font_size` (lines 117–178) measures text through PIL:
`get_font` loads a font (caching it in `self.font_cache`) and
`draw.textbbox` yields the rendered width/height.  PIL is the external
collaborator, so a font is modelled as its measuring functions and the
loader (`ImageFont.truetype` over `FONT_PATHS`, deterministic within one
process) is a parameter.  `int(x * 0.05)` etc. are modelled as exact
floor divisions `x * 5 / 100`.
-/

/-- A loaded font, seen through the only operations the fitter performs on
it: measuring the bbox width and height of a rendered text. -/
structure FontM where
  width : String → Nat
  height : String → Nat

/-- `ImageProcessor.get_font`: return the cached font for this size, or
load it and cache it. -/
def get_font (loadFont : Nat → FontM) (cache : List (Nat × FontM)) (size : Nat) :
    FontM × List (Nat × FontM) :=
  match cache.lookup size with
  | some f => (f, cache)
  | none => (loadFont size, (size, loadFont size) :: cache)

/-- One shrink loop of `calculate_optimal_font_size`
(`while size > min_size: ... if width <= max_text_width: break; size -= 2`),
fuel-encoded for structural recursion; the loop shrinks `size` by 2 every
iteration, so `fuel = size` always suffices. -/
def shrinkCore (loadFont : Nat → FontM) (text : String) (maxTextWidth minSize : Nat) :
    Nat → Nat → List (Nat × FontM) → Nat × List (Nat × FontM)
  | 0, size, cache => (size, cache)
  | fuel + 1, size, cache =>
    if minSize < size then
      let fc := get_font loadFont cache size
      if fc.1.width text ≤ maxTextWidth then (size, fc.2)
      else shrinkCore loadFont text maxTextWidth minSize fuel (size - 2) fc.2
    else (size, cache)

/-- The shrink loop started at `size` (with sufficient fuel). -/
def shrink (loadFont : Nat → FontM) (text : String) (maxTextWidth minSize size : Nat)
    (cache : List (Nat × FontM)) : Nat × List (Nat × FontM) :=
  shrinkCore loadFont text maxTextWidth minSize size size cache

/-- `ImageProcessor.calculate_optimal_font_size`: start the title at 5% and
the subtitle at 3% of the canvas height, shrink each by steps of 2 until
the rendered width fits in 90% of the canvas width or the floor
(2.5% / 2%) is passed, then return both sizes and the total text height
(title height + 30% line spacing + subtitle height).  The mutable
`font_cache` is threaded explicitly. -/
def calculate_optimal_font_size (loadFont : Nat → FontM) (cache : List (Nat × FontM))
    (title subtitle : String) (target_size : Nat × Nat) :
    (Nat × Nat × Nat) × List (Nat × FontM) :=
  let canvas_width := target_size.1
  let canvas_height := target_size.2
  let max_text_width := canvas_width * 90 / 100
  let title_size0 := canvas_height * 5 / 100
  let subtitle_size0 := canvas_height * 3 / 100
  let min_title_size := canvas_height * 25 / 1000
  let min_subtitle_size := canvas_height * 2 / 100
  let ts := shrink loadFont title max_text_width min_title_size title_size0 cache
  let ss := shrink loadFont subtitle max_text_width min_subtitle_size subtitle_size0 ts.2
  let tf := get_font loadFont ss.2 ts.1
  let sf := get_font loadFont tf.2 ss.1
  let title_height := tf.1.height title
  let subtitle_height := sf.1.height subtitle
  let line_spacing := title_height * 3 / 10
  ((ts.1, ss.1, title_height + line_spacing + subtitle_height), sf.2)

/-- A font cache is consistent when every cached entry is what the loader
would produce (always true of caches actually built by `get_font`). -/
def cacheConsistent (loadFont : Nat → FontM) (cache : List (Nat × FontM)) : Prop :=
  ∀ s f, cache.lookup s = some f → f = loadFont s

theorem get_font_fst (loadFont : Nat → FontM) (cache : List (Nat × FontM)) (s : Nat)
    (hc : cacheConsistent loadFont cache) :
    (get_font loadFont cache s).1 = loadFont s := by
  unfold get_font
  rcases h : cache.lookup s with _ | f
  · rfl
  · exact hc s f h

theorem get_font_consistent (loadFont : Nat → FontM) (cache : List (Nat × FontM)) (s : Nat)
    (hc : cacheConsistent loadFont cache) :
    cacheConsistent loadFont (get_font loadFont cache s).2 := by
  unfold get_font
  rcases h : cache.lookup s with _ | f
  · intro s' f' hl
    simp only [List.lookup] at hl
    rcases hbeq : s' == s with _ | _ <;> rw [hbeq] at hl
    · exact hc s' f' hl
    · have : s' = s := by simpa using hbeq
      subst this
      simpa using hl.symm
  · exact hc

theorem shrinkCore_le (loadFont : Nat → FontM) (text : String) (maxW minSize : Nat) :
    ∀ (fuel size : Nat) (cache : List (Nat × FontM)),
    (shrinkCore loadFont text maxW minSize fuel size cache).1 ≤ size := by
  intro fuel
  induction fuel with
  | zero => intro size cache; exact le_refl _
  | succ fuel ih =>
    intro size cache
    simp only [shrinkCore]
    split
    · split
      · exact le_refl _
      · exact le_trans (ih (size - 2) _) (by omega)
    · exact le_refl _

theorem shrinkCore_ge (loadFont : Nat → FontM) (text : String) (maxW minSize : Nat) :
    ∀ (fuel size : Nat) (cache : List (Nat × FontM)), minSize ≤ size + 1 →
    minSize ≤ (shrinkCore loadFont text maxW minSize fuel size cache).1 + 1 := by
  intro fuel
  induction fuel with
  | zero => intro size cache h; exact h
  | succ fuel ih =>
    intro size cache h
    simp only [shrinkCore]
    split
    · split
      · exact h
      · rename_i hlt _
        exact ih (size - 2) _ (by omega)
    · exact h

theorem shrinkCore_spec (loadFont : Nat → FontM) (text : String) (maxW minSize : Nat) :
    ∀ (fuel size : Nat) (c₁ c₂ : List (Nat × FontM)),
    cacheConsistent loadFont c₁ → cacheConsistent loadFont c₂ →
    (shrinkCore loadFont text maxW minSize fuel size c₁).1 =
      (shrinkCore loadFont text maxW minSize fuel size c₂).1 ∧
    cacheConsistent loadFont (shrinkCore loadFont text maxW minSize fuel size c₁).2 := by
  intro fuel
  induction fuel with
  | zero => intro size c₁ c₂ h₁ _; exact ⟨rfl, h₁⟩
  | succ fuel ih =>
    intro size c₁ c₂ h₁ h₂
    simp only [shrinkCore]
    split
    · have e₁ := get_font_fst loadFont c₁ size h₁
      have e₂ := get_font_fst loadFont c₂ size h₂
      have k₁ := get_font_consistent loadFont c₁ size h₁
      have k₂ := get_font_consistent loadFont c₂ size h₂
      rw [e₁, e₂]
      split
      · exact ⟨rfl, k₁⟩
      · exact ih (size - 2) _ _ k₁ k₂
    · exact ⟨rfl, h₁⟩

theorem div_mul_shift (h : Nat) : h * 50 / 1000 = h * 5 / 100 := by
  have e1 : h * 50 = 10 * (h * 5) := by ring
  have e2 : (1000 : Nat) = 10 * 100 := by norm_num
  rw [e1, e2, Nat.mul_div_mul_left (h * 5) 100 (by norm_num)]

/-- Claim C3, amended: for every title, subtitle and canvas, and every
measuring backend whose line heights are at most twice the font size,
`calculate_optimal_font_size` returns a title size within one step (2pt)
below the 2.5%-of-height floor and at most the 5% heuristic, a subtitle
size within one step below the 2%-of-height floor and at most the 3%
heuristic, and a total text height of at most the canvas height.  (The
shrink loop steps by 2 and may overshoot each floor by exactly one — see
the counterexample.) -/
theorem calculate_optimal_font_size_spec
    (loadFont : Nat → FontM) (cache : List (Nat × FontM)) (title subtitle : String)
    (w h : Nat)
    (hcons : cacheConsistent loadFont cache)
    (hbt : ∀ s, (loadFont s).height title ≤ 2 * s)
    (hbs : ∀ s, (loadFont s).height subtitle ≤ 2 * s) :
    h * 25 / 1000 ≤ ((calculate_optimal_font_size loadFont cache title subtitle (w, h)).1).1 + 1 ∧
    ((calculate_optimal_font_size loadFont cache title subtitle (w, h)).1).1 ≤ h * 5 / 100 ∧
    h * 2 / 100 ≤ ((calculate_optimal_font_size loadFont cache title subtitle (w, h)).1).2.1 + 1 ∧
    ((calculate_optimal_font_size loadFont cache title subtitle (w, h)).1).2.1 ≤ h * 3 / 100 ∧
    ((calculate_optimal_font_size loadFont cache title subtitle (w, h)).1).2.2 ≤ h := by
  have hminT : h * 25 / 1000 ≤ h * 5 / 100 := by
    have h1 : h * 25 / 1000 ≤ h * 50 / 1000 :=
      Nat.div_le_div_right (Nat.mul_le_mul_left h (by norm_num))
    rw [div_mul_shift h] at h1
    exact h1
  have hminS : h * 2 / 100 ≤ h * 3 / 100 :=
    Nat.div_le_div_right (Nat.mul_le_mul_left h (by norm_num))
  simp only [calculate_optimal_font_size, shrink]
  have h1 : (shrinkCore loadFont title (w * 90 / 100) (h * 25 / 1000) (h * 5 / 100)
      (h * 5 / 100) cache).1 ≤ h * 5 / 100 := shrinkCore_le _ _ _ _ _ _ _
  have h2 : h * 25 / 1000 ≤ (shrinkCore loadFont title (w * 90 / 100) (h * 25 / 1000)
      (h * 5 / 100) (h * 5 / 100) cache).1 + 1 :=
    shrinkCore_ge _ _ _ _ _ _ _ (by omega)
  have k1 : cacheConsistent loadFont (shrinkCore loadFont title (w * 90 / 100)
      (h * 25 / 1000) (h * 5 / 100) (h * 5 / 100) cache).2 :=
    (shrinkCore_spec loadFont title (w * 90 / 100) (h * 25 / 1000) (h * 5 / 100)
      (h * 5 / 100) cache cache hcons hcons).2
  have h3 : (shrinkCore loadFont subtitle (w * 90 / 100) (h * 2 / 100) (h * 3 / 100)
      (h * 3 / 100) (shrinkCore loadFont title (w * 90 / 100) (h * 25 / 1000)
        (h * 5 / 100) (h * 5 / 100) cache).2).1 ≤ h * 3 / 100 :=
    shrinkCore_le _ _ _ _ _ _ _
  have h4 : h * 2 / 100 ≤ (shrinkCore loadFont subtitle (w * 90 / 100) (h * 2 / 100)
      (h * 3 / 100) (h * 3 / 100) (shrinkCore loadFont title (w * 90 / 100)
        (h * 25 / 1000) (h * 5 / 100) (h * 5 / 100) cache).2).1 + 1 :=
    shrinkCore_ge _ _ _ _ _ _ _ (by omega)
  have k2 : cacheConsistent loadFont (shrinkCore loadFont subtitle (w * 90 / 100)
      (h * 2 / 100) (h * 3 / 100) (h * 3 / 100) (shrinkCore loadFont title
        (w * 90 / 100) (h * 25 / 1000) (h * 5 / 100) (h * 5 / 100) cache).2).2 :=
    (shrinkCore_spec loadFont subtitle (w * 90 / 100) (h * 2 / 100) (h * 3 / 100)
      (h * 3 / 100) _ _ k1 k1).2
  have htf := get_font_fst loadFont (shrinkCore loadFont subtitle (w * 90 / 100)
      (h * 2 / 100) (h * 3 / 100) (h * 3 / 100) (shrinkCore loadFont title
        (w * 90 / 100) (h * 25 / 1000) (h * 5 / 100) (h * 5 / 100) cache).2).2
    (shrinkCore loadFont title (w * 90 / 100) (h * 25 / 1000) (h * 5 / 100)
      (h * 5 / 100) cache).1 k2
  have k3 := get_font_consistent loadFont (shrinkCore loadFont subtitle (w * 90 / 100)
      (h * 2 / 100) (h * 3 / 100) (h * 3 / 100) (shrinkCore loadFont title
        (w * 90 / 100) (h * 25 / 1000) (h * 5 / 100) (h * 5 / 100) cache).2).2
    (shrinkCore loadFont title (w * 90 / 100) (h * 25 / 1000) (h * 5 / 100)
      (h * 5 / 100) cache).1 k2
  have hsf := get_font_fst loadFont _ (shrinkCore loadFont subtitle (w * 90 / 100)
      (h * 2 / 100) (h * 3 / 100) (h * 3 / 100) (shrinkCore loadFont title
        (w * 90 / 100) (h * 25 / 1000) (h * 5 / 100) (h * 5 / 100) cache).2).1 k3
  refine ⟨h2, h1, h4, h3, ?_⟩
  rw [htf, hsf]
  have fa : (h * 5 / 100) * 100 ≤ h * 5 := Nat.div_mul_le_self _ _
  have fb : (h * 3 / 100) * 100 ≤ h * 3 := Nat.div_mul_le_self _ _
  have hth := hbt (shrinkCore loadFont title (w * 90 / 100) (h * 25 / 1000)
    (h * 5 / 100) (h * 5 / 100) cache).1
  have hsh := hbs (shrinkCore loadFont subtitle (w * 90 / 100) (h * 2 / 100)
    (h * 3 / 100) (h * 3 / 100) (shrinkCore loadFont title (w * 90 / 100)
      (h * 25 / 1000) (h * 5 / 100) (h * 5 / 100) cache).2).1
  have fsp : ((loadFont (shrinkCore loadFont title (w * 90 / 100) (h * 25 / 1000)
      (h * 5 / 100) (h * 5 / 100) cache).1).height title * 3 / 10) * 10 ≤
      (loadFont (shrinkCore loadFont title (w * 90 / 100) (h * 25 / 1000)
        (h * 5 / 100) (h * 5 / 100) cache).1).height title * 3 :=
    Nat.div_mul_le_self _ _
  omega

/-- A measuring backend that reports width 0 for every text (everything
fits) and line height equal to the font size. -/
def zeroWidthFont : Nat → FontM :=
  fun s => { width := fun _ => 0, height := fun _ => s }

/-- A measuring backend on which no text ever fits the width budget
(as happens in PIL for a long enough title on a small canvas). -/
def wideFont : Nat → FontM :=
  fun s => { width := fun _ => 1000000, height := fun _ => s }

/-- Witness: the amended C3 theorem on a 100×100 canvas with an
everything-fits backend and an empty cache. -/
theorem calculate_optimal_font_size_spec_witness :
    cacheConsistent zeroWidthFont [] ∧
    (∀ s, (zeroWidthFont s).height "t" ≤ 2 * s) ∧
    (100 * 25 / 1000 ≤
        ((calculate_optimal_font_size zeroWidthFont [] "t" "s" (100, 100)).1).1 + 1 ∧
      ((calculate_optimal_font_size zeroWidthFont [] "t" "s" (100, 100)).1).1 ≤ 100 * 5 / 100 ∧
      100 * 2 / 100 ≤
        ((calculate_optimal_font_size zeroWidthFont [] "t" "s" (100, 100)).1).2.1 + 1 ∧
      ((calculate_optimal_font_size zeroWidthFont [] "t" "s" (100, 100)).1).2.1 ≤ 100 * 3 / 100 ∧
      ((calculate_optimal_font_size zeroWidthFont [] "t" "s" (100, 100)).1).2.2 ≤ 100) :=
  ⟨fun s f hl => by simp [List.lookup] at hl,
   fun s => by show s ≤ 2 * s; omega,
   calculate_optimal_font_size_spec zeroWidthFont [] "t" "s" 100 100
     (fun s f hl => by simp [List.lookup] at hl)
     (fun s => by show s ≤ 2 * s; omega)
     (fun s => by show s ≤ 2 * s; omega)⟩

/-- Counterexample to claim C3 as stated: on a 100×100 canvas the title
floor is `int(100*0.025) = 2`, but when no candidate width fits, the
shrink loop runs `5 → 3 → 1` and returns a title size of `1`, below the
configured minimum floor. -/
theorem calculate_optimal_font_size_floor_counterexample :
    ((calculate_optimal_font_size wideFont [] "t" "s" (100, 100)).1).1 = 1 ∧
    100 * 25 / 1000 = 2 := by
  constructor
  · rfl
  · rfl

theorem calc_font_core (loadFont : Nat → FontM) (title subtitle : String) (target : Nat × Nat)
    (d₁ d₂ : List (Nat × FontM)) (hd₁ : cacheConsistent loadFont d₁)
    (hd₂ : cacheConsistent loadFont d₂) :
    (calculate_optimal_font_size loadFont d₁ title subtitle target).1 =
      (calculate_optimal_font_size loadFont d₂ title subtitle target).1 ∧
    cacheConsistent loadFont (calculate_optimal_font_size loadFont d₁ title subtitle target).2 := by
  simp only [calculate_optimal_font_size, shrink]
  obtain ⟨e1, k1⟩ := shrinkCore_spec loadFont title (target.1 * 90 / 100)
    (target.2 * 25 / 1000) (target.2 * 5 / 100) (target.2 * 5 / 100) d₁ d₂ hd₁ hd₂
  obtain ⟨_, k1'⟩ := shrinkCore_spec loadFont title (target.1 * 90 / 100)
    (target.2 * 25 / 1000) (target.2 * 5 / 100) (target.2 * 5 / 100) d₂ d₁ hd₂ hd₁
  obtain ⟨e2, k2⟩ := shrinkCore_spec loadFont subtitle (target.1 * 90 / 100)
    (target.2 * 2 / 100) (target.2 * 3 / 100) (target.2 * 3 / 100) _ _ k1 k1'
  obtain ⟨_, k2'⟩ := shrinkCore_spec loadFont subtitle (target.1 * 90 / 100)
    (target.2 * 2 / 100) (target.2 * 3 / 100) (target.2 * 3 / 100) _ _ k1' k1
  have t1 := get_font_fst loadFont _ (shrinkCore loadFont title (target.1 * 90 / 100)
    (target.2 * 25 / 1000) (target.2 * 5 / 100) (target.2 * 5 / 100) d₁).1 k2
  have t2 := get_font_fst loadFont _ (shrinkCore loadFont title (target.1 * 90 / 100)
    (target.2 * 25 / 1000) (target.2 * 5 / 100) (target.2 * 5 / 100) d₂).1 k2'
  have k3 := get_font_consistent loadFont _ (shrinkCore loadFont title (target.1 * 90 / 100)
    (target.2 * 25 / 1000) (target.2 * 5 / 100) (target.2 * 5 / 100) d₁).1 k2
  have k3' := get_font_consistent loadFont _ (shrinkCore loadFont title (target.1 * 90 / 100)
    (target.2 * 25 / 1000) (target.2 * 5 / 100) (target.2 * 5 / 100) d₂).1 k2'
  have u1 := get_font_fst loadFont _ (shrinkCore loadFont subtitle (target.1 * 90 / 100)
    (target.2 * 2 / 100) (target.2 * 3 / 100) (target.2 * 3 / 100)
    (shrinkCore loadFont title (target.1 * 90 / 100) (target.2 * 25 / 1000)
      (target.2 * 5 / 100) (target.2 * 5 / 100) d₁).2).1 k3
  have u2 := get_font_fst loadFont _ (shrinkCore loadFont subtitle (target.1 * 90 / 100)
    (target.2 * 2 / 100) (target.2 * 3 / 100) (target.2 * 3 / 100)
    (shrinkCore loadFont title (target.1 * 90 / 100) (target.2 * 25 / 1000)
      (target.2 * 5 / 100) (target.2 * 5 / 100) d₂).2).1 k3'
  have k4 := get_font_consistent loadFont _ (shrinkCore loadFont subtitle
    (target.1 * 90 / 100) (target.2 * 2 / 100) (target.2 * 3 / 100) (target.2 * 3 / 100)
    (shrinkCore loadFont title (target.1 * 90 / 100) (target.2 * 25 / 1000)
      (target.2 * 5 / 100) (target.2 * 5 / 100) d₁).2).1 k3
  refine ⟨?_, k4⟩
  rw [t1, t2, u1, u2, e1, e2]

/-- Claim C4, amended: `calculate_optimal_font_size` is deterministic —
on caches consistent with the font loader, identical
`(title, subtitle, target_size)` inputs yield the identical
`(title_size, subtitle_size, total_height)` triple, and an immediate
second run (on the cache the first run produced) yields the same triple
again.  Its only side effect is growing the font cache with entries that
agree with the loader (consistency is preserved), so it is not pure — see
the counterexample. -/
theorem calculate_optimal_font_size_deterministic
    (loadFont : Nat → FontM) (c₁ c₂ : List (Nat × FontM))
    (h₁ : cacheConsistent loadFont c₁) (h₂ : cacheConsistent loadFont c₂)
    (title subtitle : String) (target : Nat × Nat) :
    (calculate_optimal_font_size loadFont c₁ title subtitle target).1 =
      (calculate_optimal_font_size loadFont c₂ title subtitle target).1 ∧
    cacheConsistent loadFont (calculate_optimal_font_size loadFont c₁ title subtitle target).2 ∧
    (calculate_optimal_font_size loadFont
        (calculate_optimal_font_size loadFont c₁ title subtitle target).2
        title subtitle target).1 =
      (calculate_optimal_font_size loadFont c₁ title subtitle target).1 := by
  have hcons2 := (calc_font_core loadFont title subtitle target c₁ c₁ h₁ h₁).2
  exact ⟨(calc_font_core loadFont title subtitle target c₁ c₂ h₁ h₂).1, hcons2,
    (calc_font_core loadFont title subtitle target _ c₁ hcons2 h₁).1⟩

/-- Witness: the amended C4 theorem with the everything-fits backend and
two empty (hence consistent) caches. -/
theorem calculate_optimal_font_size_deterministic_witness :
    cacheConsistent zeroWidthFont [] ∧
    ((calculate_optimal_font_size zeroWidthFont [] "t" "s" (100, 100)).1 =
      (calculate_optimal_font_size zeroWidthFont [] "t" "s" (100, 100)).1 ∧
    cacheConsistent zeroWidthFont
      (calculate_optimal_font_size zeroWidthFont [] "t" "s" (100, 100)).2 ∧
    (calculate_optimal_font_size zeroWidthFont
        (calculate_optimal_font_size zeroWidthFont [] "t" "s" (100, 100)).2
        "t" "s" (100, 100)).1 =
      (calculate_optimal_font_size zeroWidthFont [] "t" "s" (100, 100)).1) :=
  ⟨fun s f hl => by simp [List.lookup] at hl,
   calculate_optimal_font_size_deterministic zeroWidthFont [] []
     (fun s f hl => by simp [List.lookup] at hl)
     (fun s f hl => by simp [List.lookup] at hl) "t" "s" (100, 100)⟩

/-- Counterexample to claim C4 as stated: the routine is not pure — a run
from an empty font cache leaves two fonts cached (the processor's
`font_cache` state has changed). -/
theorem calculate_optimal_font_size_state_counterexample :
    ((calculate_optimal_font_size zeroWidthFont [] "t" "s" (100, 100)).2).length = 2 ∧
    ([] : List (Nat × FontM)).length = 0 := by
  constructor
  · rfl
  · rfl

/-! ### The scaling step of `ImageProcessor.create_screenshot_with_text`

From `src/ios-tools/screenshots/image_processor.py`, lines 218–235: the
screenshot is resized preserving aspect ratio — fit to width when its
width/height ratio exceeds the available area's, else fit to height — and
then centered horizontally.  Float ratios are modelled as exact rationals
and Python `int` truncation of nonnegative values as `Nat` division.
-/

/-- The resize computation: `screenshot_ratio = sw/sh`,
`target_ratio = aw/ah`; fit to width when `screenshot_ratio > target_ratio`,
else fit to height.  Returns `(new_width, new_height)`. -/
def fitScreenshot (sw sh aw ah : Nat) : Nat × Nat :=
  if (aw : ℚ) / (ah : ℚ) < (sw : ℚ) / (sh : ℚ) then (aw, aw * sh / sw)
  else (ah * sw / sh, ah)

/-- `screenshot_x = (canvas_width - new_width) // 2`. -/
def screenshotX (cw nw : Nat) : Nat := (cw - nw) / 2

/-- Claim C8: a screenshot taller than wide composited into an available
area with `target_ratio > screenshot_ratio` is scaled to exactly the
available height, its width (derived from the aspect ratio) stays within
the available width, and it is centered horizontally with no horizontal
cropping (the left and right gaps differ by at most one pixel and the
image lies entirely inside the canvas). -/
theorem create_screenshot_fit_to_height
    (sw sh aw ah cw : Nat)
    (hsw : 0 < sw) (hsh : 0 < sh) (haw : 0 < aw) (hah : 0 < ah)
    (htaller : sw < sh)
    (hratio : (sw : ℚ) / (sh : ℚ) < (aw : ℚ) / (ah : ℚ))
    (hawcw : aw ≤ cw) :
    (fitScreenshot sw sh aw ah).2 = ah ∧
    (fitScreenshot sw sh aw ah).1 = ah * sw / sh ∧
    (fitScreenshot sw sh aw ah).1 < aw ∧
    screenshotX cw (fitScreenshot sw sh aw ah).1 + (fitScreenshot sw sh aw ah).1 ≤ cw ∧
    (cw - (screenshotX cw (fitScreenshot sw sh aw ah).1 + (fitScreenshot sw sh aw ah).1)) ≤
      screenshotX cw (fitScreenshot sw sh aw ah).1 + 1 := by
  have hcond : ¬ ((aw : ℚ) / (ah : ℚ) < (sw : ℚ) / (sh : ℚ)) := asymm hratio
  have hfit : fitScreenshot sw sh aw ah = (ah * sw / sh, ah) := by
    rw [fitScreenshot, if_neg hcond]
  have hcross : sw * ah < aw * sh := by
    have h1 : (sw : ℚ) * ah < aw * sh := by
      rw [div_lt_div_iff (by positivity) (by positivity)] at hratio
      exact_mod_cast hratio
    exact_mod_cast h1
  have hwidth : ah * sw / sh < aw := by
    rw [Nat.div_lt_iff_lt_mul hsh]
    calc ah * sw = sw * ah := by ring
      _ < aw * sh := hcross
  rw [hfit]
  refine ⟨rfl, rfl, hwidth, ?_, ?_⟩
  · show (cw - ah * sw / sh) / 2 + ah * sw / sh ≤ cw
    omega
  · show cw - ((cw - ah * sw / sh) / 2 + ah * sw / sh) ≤ (cw - ah * sw / sh) / 2 + 1
    omega

/-- Witness: the C8 theorem on a 2×4 screenshot in a 3×4 available area of
a width-4 canvas. -/
theorem create_screenshot_fit_to_height_witness :
    ((2 : ℚ) / (4 : ℚ) < (3 : ℚ) / (4 : ℚ)) ∧
    ((fitScreenshot 2 4 3 4).2 = 4 ∧
      (fitScreenshot 2 4 3 4).1 = 4 * 2 / 4 ∧
      (fitScreenshot 2 4 3 4).1 < 3 ∧
      screenshotX 4 (fitScreenshot 2 4 3 4).1 + (fitScreenshot 2 4 3 4).1 ≤ 4 ∧
      (4 - (screenshotX 4 (fitScreenshot 2 4 3 4).1 + (fitScreenshot 2 4 3 4).1)) ≤
        screenshotX 4 (fitScreenshot 2 4 3 4).1 + 1) :=
  ⟨by norm_num,
   create_screenshot_fit_to_height 2 4 3 4 4 (by norm_num) (by norm_num) (by norm_num)
     (by norm_num) (by norm_num) (by norm_num) (by norm_num)⟩

/-! ### `ImageProcessor.wrap_text` (ios-tools image_processor.py, lines 83–115)

`wrap_text` splits the text with Python `str.split()` (runs of whitespace,
empty pieces dropped), then greedily packs words into lines, measuring
the candidate line through `draw.textbbox`; the measuring function is the
opaque imaging parameter.  `' '.join` is modelled by `joinSp`.
-/

/-- Python `' '.join`. -/
def joinSp : List String → String
  | [] => ""
  | [x] => x
  | x :: y :: xs => x ++ " " ++ joinSp (y :: xs)

/-- Accumulator pass of Python `str.split()` on a character list: skip
whitespace, group maximal non-whitespace runs. -/
def splitWsAux : List Char → List Char → List (List Char)
  | [], acc => if acc.isEmpty then [] else [acc.reverse]
  | c :: cs, acc =>
    if c.isWhitespace then
      if acc.isEmpty then splitWsAux cs [] else acc.reverse :: splitWsAux cs []
    else splitWsAux cs (c :: acc)

/-- Python `text.split()` (no separator argument). -/
def pySplit (s : String) : List String := (splitWsAux s.data []).map String.mk

/-- The word-packing loop of `wrap_text`: `current` is `current_line`,
`lines` the emitted lines. -/
def wrapLoop (measure : String → Nat) (maxW : Nat) :
    List String → List String → List String → List String
  | [], lines, current => if current.isEmpty then lines else lines ++ [joinSp current]
  | w :: ws, lines, current =>
    if measure (joinSp (current ++ [w])) ≤ maxW then
      wrapLoop measure maxW ws lines (current ++ [w])
    else if current.isEmpty then wrapLoop measure maxW ws lines [w]
    else wrapLoop measure maxW ws (lines ++ [joinSp current]) [w]

/-- `ImageProcessor.wrap_text` with the text-measuring function of the
font/draw pair as the opaque parameter. -/
def wrap_text (measure : String → Nat) (text : String) (maxW : Nat) : List String :=
  wrapLoop measure maxW (pySplit text) [] []

/-- The grouping the loop induces on the word list (each group becomes one
line). -/
def wrapGroups (measure : String → Nat) (maxW : Nat) :
    List String → List String → List (List String)
  | [], current => if current.isEmpty then [] else [current]
  | w :: ws, current =>
    if measure (joinSp (current ++ [w])) ≤ maxW then
      wrapGroups measure maxW ws (current ++ [w])
    else if current.isEmpty then wrapGroups measure maxW ws [w]
    else current :: wrapGroups measure maxW ws [w]

theorem wrapLoop_eq_groups (measure : String → Nat) (maxW : Nat) :
    ∀ (ws lines current : List String),
    wrapLoop measure maxW ws lines current =
      lines ++ (wrapGroups measure maxW ws current).map joinSp := by
  intro ws
  induction ws with
  | nil =>
    intro lines current
    rw [wrapLoop, wrapGroups]
    split
    · simp
    · simp
  | cons w ws ih =>
    intro lines current
    rw [wrapLoop, wrapGroups]
    split
    · exact ih lines (current ++ [w])
    · split
      · exact ih lines [w]
      · rw [ih (lines ++ [joinSp current]) [w]]
        simp

theorem wrapGroups_flatten (measure : String → Nat) (maxW : Nat) :
    ∀ (ws current : List String),
    (wrapGroups measure maxW ws current).flatten = current ++ ws := by
  intro ws
  induction ws with
  | nil =>
    intro current
    rw [wrapGroups]
    split
    · rename_i hemp
      rw [List.isEmpty_iff.mp hemp]
      rfl
    · simp
  | cons w ws ih =>
    intro current
    rw [wrapGroups]
    split
    · rw [ih (current ++ [w])]
      simp
    · split
      · rename_i hemp
        rw [List.isEmpty_iff.mp hemp, ih [w]]
        rfl
      · simp only [List.flatten_cons, ih [w]]
        simp

theorem wrapGroups_ne_nil (measure : String → Nat) (maxW : Nat) :
    ∀ (ws current : List String), ∀ g ∈ wrapGroups measure maxW ws current, g ≠ [] := by
  intro ws
  induction ws with
  | nil =>
    intro current g hg
    rw [wrapGroups] at hg
    split at hg
    · cases hg
    · rename_i hemp
      rw [List.mem_singleton.mp hg]
      intro h
      rw [h] at hemp
      simp at hemp
  | cons w ws ih =>
    intro current g hg
    rw [wrapGroups] at hg
    split at hg
    · exact ih (current ++ [w]) g hg
    · split at hg
      · exact ih [w] g hg
      · rcases List.mem_cons.mp hg with rfl | hg'
        · rename_i hemp
          intro h
          rw [h] at hemp
          simp at hemp
        · exact ih [w] g hg'

theorem joinSp_append (a b : List String) (ha : a ≠ []) (hb : b ≠ []) :
    joinSp (a ++ b) = joinSp a ++ " " ++ joinSp b := by
  induction a with
  | nil => exact absurd rfl ha
  | cons x a ih =>
    rcases ha' : a with _ | ⟨y, a'⟩
    · rcases b with _ | ⟨z, b'⟩
      · exact absurd rfl hb
      · rfl
    · rw [← ha']
      have hane : a ≠ [] := by rw [ha']; simp
      have : x :: a ++ b = x :: (a ++ b) := rfl
      rw [this]
      have habne : a ++ b ≠ [] := by
        rw [ha']
        simp
      have h1 : joinSp (x :: (a ++ b)) = x ++ " " ++ joinSp (a ++ b) := by
        rcases hab : a ++ b with _ | ⟨u, v⟩
        · exact absurd hab habne
        · rfl
      have h2 : joinSp (x :: a) = x ++ " " ++ joinSp a := by
        rw [ha']
        rfl
      rw [h1, h2, ih hane]
      simp [String.append_assoc]

theorem joinSp_map_flatten : ∀ (groups : List (List String)),
    (∀ g ∈ groups, g ≠ []) → joinSp (groups.map joinSp) = joinSp groups.flatten := by
  intro groups
  induction groups with
  | nil => intro; rfl
  | cons g gs ih =>
    intro hne
    rcases hgs : gs with _ | ⟨g', gs'⟩
    · subst hgs
      simp [joinSp]
    · rw [← hgs]
      have hflat : gs.flatten ≠ [] := by
        rw [hgs]
        have hg' : g' ≠ [] := hne g' (by rw [hgs]; simp)
        rcases g' with _ | ⟨c, cs⟩
        · exact absurd rfl hg'
        · simp
      have hmapne : gs.map joinSp ≠ [] := by
        rw [hgs]
        simp
      have h1 : joinSp (joinSp g :: gs.map joinSp) =
          joinSp g ++ " " ++ joinSp (gs.map joinSp) := by
        rcases hm : gs.map joinSp with _ | ⟨u, v⟩
        · exact absurd hm hmapne
        · rfl
      have hgne : g ≠ [] := hne g (List.mem_cons_self _ _)
      have ihe : joinSp (gs.map joinSp) = joinSp gs.flatten :=
        ih (fun x hx => hne x (List.mem_cons_of_mem _ hx))
      simp only [List.map_cons, List.flatten_cons]
      rw [h1, ihe, joinSp_append g gs.flatten hgne hflat]

theorem splitWsAux_wordsOK : ∀ (l acc : List Char),
    (∀ c ∈ acc, c.isWhitespace = false) →
    ∀ p ∈ splitWsAux l acc, p ≠ [] ∧ ∀ c ∈ p, c.isWhitespace = false := by
  intro l
  induction l with
  | nil =>
    intro acc hacc p hp
    rw [splitWsAux] at hp
    split at hp
    · cases hp
    · rename_i hemp
      rw [List.mem_singleton.mp hp]
      constructor
      · intro h
        rw [show acc = [] from by simpa using congrArg List.reverse h] at hemp
        simp at hemp
      · intro c hc
        exact hacc c (List.mem_reverse.mp hc)
  | cons c cs ih =>
    intro acc hacc p hp
    rw [splitWsAux] at hp
    split at hp
    · split at hp
      · exact ih [] (by simp) p hp
      · rcases List.mem_cons.mp hp with rfl | hp'
        · rename_i hemp
          constructor
          · intro h
            rw [show acc = [] from by simpa using congrArg List.reverse h] at hemp
            simp at hemp
          · intro d hd
            exact hacc d (List.mem_reverse.mp hd)
        · exact ih [] (by simp) p hp'
    · rename_i hws
      refine ih (c :: acc) ?_ p hp
      intro d hd
      rcases List.mem_cons.mp hd with rfl | hd'
      · simpa using hws
      · exact hacc d hd'

theorem splitWsAux_run (u : List Char) (hune : u ≠ [])
    (hu : ∀ c ∈ u, c.isWhitespace = false) :
    ∀ (rest acc : List Char), splitWsAux (u ++ rest) acc = splitWsAux rest (u.reverse ++ acc) := by
  induction u with
  | nil => exact absurd rfl hune
  | cons x u ih =>
    intro rest acc
    have hx : x.isWhitespace = false := hu x (List.mem_cons_self _ _)
    rw [List.cons_append, splitWsAux]
    rw [if_neg (by simp [hx])]
    rcases hu' : u with _ | ⟨y, u'⟩
    · simp
    · rw [← hu']
      have hune' : u ≠ [] := by rw [hu']; simp
      rw [ih hune' (fun d hd => hu d (List.mem_cons_of_mem _ hd)) rest (x :: acc)]
      congr 1
      simp

theorem pySplit_joinSp : ∀ (words : List String),
    (∀ w ∈ words, w ≠ "" ∧ ∀ c ∈ w.data, c.isWhitespace = false) →
    pySplit (joinSp words) = words := by
  intro words
  induction words with
  | nil => intro; rfl
  | cons w ws ih =>
    intro hok
    have hwne : w.data ≠ [] := by
      have := (hok w (List.mem_cons_self _ _)).1
      intro h
      exact this (by
        cases w
        simp at h
        rw [h])
    have hwok : ∀ c ∈ w.data, c.isWhitespace = false :=
      (hok w (List.mem_cons_self _ _)).2
    rcases hws : ws with _ | ⟨w', ws'⟩
    · show (splitWsAux (joinSp [w]).data []).map String.mk = [w]
      have : (joinSp [w]).data = w.data ++ [] := by simp [joinSp]
      rw [this, splitWsAux_run w.data hwne hwok [] []]
      rw [splitWsAux]
      rw [if_neg (by simp [hwne])]
      simp
    · rw [← hws]
      have hwsne : ws ≠ [] := by rw [hws]; simp
      have hjoin : joinSp (w :: ws) = w ++ " " ++ joinSp ws := by
        rw [hws]
        rfl
      have hdata : (joinSp (w :: ws)).data = w.data ++ (' ' :: (joinSp ws).data) := by
        rw [hjoin, String.append_assoc]
        rw [String.data_append]
        congr 1
      show (splitWsAux (joinSp (w :: ws)).data []).map String.mk = w :: ws
      rw [hdata, splitWsAux_run w.data hwne hwok (' ' :: (joinSp ws).data) []]
      rw [splitWsAux]
      rw [if_pos (by decide)]
      rw [if_neg (by simp [hwne])]
      simp only [List.map_cons, List.append_nil, List.reverse_reverse]
      have hmk : String.mk w.data = w := by cases w; rfl
      rw [hmk]
      congr 1
      exact ih (fun x hx => hok x (List.mem_cons_of_mem _ hx))

theorem wrapGroups_overlong (measure : String → Nat) (maxW : Nat)
    (hmono : ∀ a b : String, measure b ≤ measure (a ++ b) ∧ measure a ≤ measure (a ++ b)) :
    ∀ (ws current : List String),
    (∀ w ∈ current, maxW < measure w → current = [w]) →
    ∀ g ∈ wrapGroups measure maxW ws current, ∀ w ∈ g, maxW < measure w → g = [w] := by
  intro ws
  induction ws with
  | nil =>
    intro current hP g hg
    rw [wrapGroups] at hg
    split at hg
    · cases hg
    · rw [List.mem_singleton.mp hg]
      exact hP
  | cons w₀ ws ih =>
    intro current hP g hg
    rw [wrapGroups] at hg
    split at hg
    · rename_i hfits
      refine ih (current ++ [w₀]) ?_ g hg
      intro x hx hover
      exfalso
      rcases List.mem_append.mp hx with hxc | hxw
      · have hcx : current = [x] := hP x hxc hover
        rw [hcx] at hfits
        have h1 : joinSp ([x] ++ [w₀]) = x ++ (" " ++ w₀) := by
          show joinSp [x, w₀] = _
          rw [show joinSp [x, w₀] = x ++ " " ++ joinSp [w₀] from rfl]
          rw [String.append_assoc]
          rfl
        rw [h1] at hfits
        have := (hmono x (" " ++ w₀)).2
        omega
      · rw [List.mem_singleton.mp hxw] at hover
        rcases hcur : current with _ | ⟨c0, cur'⟩
        · rw [hcur] at hfits
          simp only [List.nil_append] at hfits
          have : joinSp [w₀] = w₀ := rfl
          rw [this] at hfits
          omega
        · have hcne : current ≠ [] := by rw [hcur]; simp
          have h1 : joinSp (current ++ [w₀]) = (joinSp current ++ " ") ++ w₀ := by
            rw [joinSp_append current [w₀] hcne (by simp)]
            rfl
          rw [h1] at hfits
          have := (hmono (joinSp current ++ " ") w₀).1
          omega
    · split at hg
      · refine ih [w₀] ?_ g hg
        intro x hx _
        rw [List.mem_singleton.mp hx]
      · rcases List.mem_cons.mp hg with rfl | hg'
        · exact hP
        · refine ih [w₀] ?_ g hg'
          intro x hx _
          rw [List.mem_singleton.mp hx]

/-- Claim C10: `wrap_text` preserves the word sequence — concatenating the
returned lines with spaces and re-splitting yields exactly the words of the
input text (no word split, dropped, duplicated or reordered) — and, for
any measuring function that is monotone under concatenation (as real text
metrics are), a single word wider than `max_width` is placed alone on its
own line rather than rejected. -/
theorem wrap_text_spec (measure : String → Nat) (text : String) (maxW : Nat)
    (hmono : ∀ a b : String, measure b ≤ measure (a ++ b) ∧ measure a ≤ measure (a ++ b)) :
    pySplit (joinSp (wrap_text measure text maxW)) = pySplit text ∧
    (∀ w ∈ pySplit text, maxW < measure w → w ∈ wrap_text measure text maxW) := by
  have hloop : wrap_text measure text maxW =
      (wrapGroups measure maxW (pySplit text) []).map joinSp := by
    rw [wrap_text, wrapLoop_eq_groups]
    rfl
  have hflat : (wrapGroups measure maxW (pySplit text) []).flatten = pySplit text := by
    rw [wrapGroups_flatten]
    rfl
  have hne : ∀ g ∈ wrapGroups measure maxW (pySplit text) [], g ≠ [] :=
    wrapGroups_ne_nil measure maxW (pySplit text) []
  have hwordsOK : ∀ w ∈ pySplit text, w ≠ "" ∧ ∀ c ∈ w.data, c.isWhitespace = false := by
    intro w hw
    rcases List.mem_map.mp hw with ⟨p, hp, rfl⟩
    obtain ⟨hpne, hpok⟩ := splitWsAux_wordsOK text.data [] (by simp) p hp
    constructor
    · intro h
      exact hpne (by
        have := congrArg String.data h
        simpa using this)
    · exact hpok
  constructor
  · rw [hloop, joinSp_map_flatten _ hne, hflat]
    exact pySplit_joinSp (pySplit text) hwordsOK
  · intro w hw hover
    have hwmem : w ∈ (wrapGroups measure maxW (pySplit text) []).flatten := by
      rw [hflat]
      exact hw
    rcases List.mem_flatten.mp hwmem with ⟨g, hgmem, hwg⟩
    have hg1 : g = [w] :=
      wrapGroups_overlong measure maxW hmono (pySplit text) [] (by simp) g hgmem w hwg hover
    rw [hloop]
    refine List.mem_map.mpr ⟨g, hgmem, ?_⟩
    rw [hg1]
    rfl

/-- Witness: `wrap_text` with the character-count metric on
`"a bb verylongword"` and width budget 4: the word list is preserved and
the overlong word sits alone on its own line. -/
theorem wrap_text_spec_witness :
    (∀ a b : String, String.length b ≤ String.length (a ++ b) ∧
      String.length a ≤ String.length (a ++ b)) ∧
    (pySplit (joinSp (wrap_text String.length "a bb verylongword" 4)) =
      pySplit "a bb verylongword" ∧
    (∀ w ∈ pySplit "a bb verylongword", 4 < String.length w →
      w ∈ wrap_text String.length "a bb verylongword" 4)) :=
  ⟨fun a b => by constructor <;> (rw [String.length_append]; omega),
   wrap_text_spec String.length "a bb verylongword" 4
     (fun a b => by constructor <;> (rw [String.length_append]; omega))⟩

/-! ### `ScreenshotPipeline.generate` (screenshot_pipeline.py, lines 278–500)

The filesystem is modelled as an association list of `(path, contents)`
pairs read through first-match lookup; a write prepends (shadowing any
older entry).  `generate` (full-rebuild mode, the default) deletes each
known platform's output subtree, renders every configured screenshot at
every required size reading sources under `Input/`, and finally writes one
`RESULTS.md` per known platform.  Image rendering and PNG encoding
(`create_screenshot_with_text` + `img.save`) are the opaque imaging
parameter `render`.
-/

/-- The persisted per-platform section of `screenshot_config.json`. -/
structure PlatformConfig where
  theme : String
  device_type : String
  screenshots : List ScreenshotConfig
deriving DecidableEq

/-- The persisted `screenshot_config.json` document. -/
structure PipelineConfig where
  version : String
  generated : String
  auto_ordered : Bool
  platforms : List (String × PlatformConfig)
deriving DecidableEq

/-- First-match association-list filesystem. -/
def fsLookup (fs : List (String × String)) (p : String) : Option String := fs.lookup p

/-- Writing a file: the new entry shadows any previous one. -/
def fsWrite (fs : List (String × String)) (p c : String) : List (String × String) :=
  (p, c) :: fs

/-- Is `p` strictly inside directory `root`? -/
def underDir (root p : String) : Bool := (root ++ "/").data.isPrefixOf p.data

/-- Is `p` inside the output tree? -/
def underOutput (p : String) : Bool := "Output/".data.isPrefixOf p.data

/-- The per-platform output root cleaned by `generate` (and used for
`RESULTS.md`); unknown platform keys are skipped (`continue`). -/
def outputRoot? (platform : String) : Option String :=
  if platform = "android" then some "Output/android"
  else if platform = "ios_iphone" then some "Output/ios/iphone"
  else if platform = "ios_ipad" then some "Output/ios/ipad"
  else none

/-- `SIZES.get(platform, {})` flattened over its device categories
(src/screenshots/config.py). -/
def sizesFor (platform : String) : List (Nat × Nat) :=
  if platform = "android" then [(1080, 1920), (1440, 2560)]
  else if platform = "ios_iphone" then
    [(1320, 2868), (1290, 2796), (1284, 2778), (1242, 2208)]
  else if platform = "ios_ipad" then [(2064, 2752), (1668, 2388)]
  else []

/-- `SIZE_LABELS` (src/screenshots/config.py). -/
def sizeLabel (size : Nat × Nat) : String :=
  if size = (1080, 1920) then "phone_1080x1920"
  else if size = (1440, 2560) then "phone_1440x2560"
  else if size = (1320, 2868) then "6.9_inch"
  else if size = (1290, 2796) then "6.7_inch"
  else if size = (1284, 2778) then "6.5_inch"
  else if size = (1242, 2208) then "5.5_inch"
  else if size = (2064, 2752) then "13_inch"
  else "11_inch"

/-- The output path of one generated image
(`output_path / f"{base_name}.png"`, lines 381–395). -/
def imageOutPath (platform : String) (size : Nat × Nat) (filename : String) : String :=
  (if platform = "android" then "Output/android/phone/" ++ sizeLabel size
   else if platform = "ios_iphone" then "Output/ios/iphone/" ++ sizeLabel size
   else "Output/ios/ipad/" ++ sizeLabel size) ++ "/" ++ stem filename ++ ".png"

/-- The source path of a configured screenshot
(`self.input_dir / platform / filename`). -/
def srcPath (platform filename : String) : String :=
  "Input/" ++ platform ++ "/" ++ filename

/-- One image-generation work item (platform × screenshot × size). -/
structure GenItem where
  platform : String
  filename : String
  title : String
  subtitle : String
  size : Nat × Nat
  theme : String
deriving DecidableEq

/-- The opaque imaging backend: source bytes, title, subtitle, target
size and gradient theme to encoded PNG bytes
(`create_screenshot_with_text` at `DEFAULT_SCREENSHOT_SCALE` followed by
`img.save`). -/
def Render : Type := String → String → String → (Nat × Nat) → String → String

/-- The roots whose subtrees the default (full) `generate` run deletes:
one per known platform present in the config (lines 310–326). -/
def cleanRoots (cfg : PipelineConfig) : List String :=
  cfg.platforms.filterMap (fun pc => outputRoot? pc.1)

/-- Is `p` inside one of the cleaned platform subtrees? -/
def underAnyRoot (cfg : PipelineConfig) (p : String) : Bool :=
  (cleanRoots cfg).any (fun r => underDir r p)

/-- The clean step: `shutil.rmtree` of every known platform's output
subtree. -/
def cleanPhase (cfg : PipelineConfig) (fs : List (String × String)) :
    List (String × String) :=
  fs.filter (fun e => !underAnyRoot cfg e.1)

/-- All image-generation work items of a config, in processing order. -/
def genItems (cfg : PipelineConfig) : List GenItem :=
  cfg.platforms.flatMap (fun pc =>
    pc.2.screenshots.flatMap (fun ss =>
      (sizesFor pc.1).map (fun sz =>
        { platform := pc.1, filename := ss.file, title := ss.title,
          subtitle := ss.subtitle, size := sz, theme := pc.2.theme })))

/-- Generating one image: skip (with a logged error) when the source file
is missing, otherwise render and write the output file. -/
def genStep (render : Render) (fs : List (String × String)) (it : GenItem) :
    List (String × String) :=
  match fsLookup fs (srcPath it.platform it.filename) with
  | none => fs
  | some src =>
    fsWrite fs (imageOutPath it.platform it.size it.filename)
      (render src it.title it.subtitle it.size it.theme)

/-- The image-generation phase. -/
def writePhase (render : Render) (cfg : PipelineConfig)
    (fs : List (String × String)) : List (String × String) :=
  (genItems cfg).foldl (genStep render) fs

/-- Decimal string of a natural (Python `str`). -/
def natStr (n : Nat) : String := String.mk (decChars n)

/-- Display of an optional rank (`ss.get('rank', '-')` interpolated). -/
def mdRank (r : Option Nat) : String :=
  match r with
  | some n => natStr n
  | none => "-"

/-- `s.replace('|', '\\|')` for the Markdown table. -/
def escPipe (s : String) : String :=
  String.mk (s.data.flatMap (fun c => if c = '|' then ['\\', '|'] else [c]))

/-- Truncation of long ranking reasons (`reason[:77] + '...'`). -/
def truncReason (s : String) : String :=
  if 80 < s.length then s.take 77 ++ "..." else s

/-- One row of the `RESULTS.md` summary table (lines 454–465). -/
def mdTableRow (ss : ScreenshotConfig) : String :=
  "| " ++ mdRank ss.rank ++ " | " ++ ss.file ++ " | " ++ escPipe ss.title ++
    " | " ++ escPipe ss.subtitle ++ " | " ++
    truncReason (escPipe (ss.rank_reason.getD "-")) ++ " |"

/-- The detailed-analysis block of one screenshot (lines 474–494). -/
def mdDetail (ss : ScreenshotConfig) : List String :=
  ["### #" ++ mdRank ss.rank ++ (if ss.hero_shot.getD false then " 🏆 HERO" else "") ++
     ": " ++ ss.title,
   "",
   "**File:** `" ++ ss.file ++ "`",
   "",
   "**Subtitle:** " ++ ss.subtitle,
   "",
   "**Why this ranking:** " ++ ss.rank_reason.getD "-",
   "",
   "**Detected content:** " ++
     (if ss.detected_content.isEmpty then "N/A"
      else String.intercalate ", " ss.detected_content),
   ""]

/-- The full `RESULTS.md` contents for one platform
(`_generate_results_markdown`). -/
def resultsMarkdown (cfg : PipelineConfig) (platform : String) (pc : PlatformConfig) :
    String :=
  String.intercalate "\n"
    (["# Screenshot Analysis - " ++ platform.toUpper,
      "",
      "Generated: " ++ cfg.generated,
      "Auto-ordered: " ++ (if cfg.auto_ordered then "Yes" else "No"),
      "",
      "## Screenshots",
      "",
      "| # | Filename | Title | Subtitle | Ranking Reason |",
      "|---|----------|-------|----------|----------------|"] ++
     pc.screenshots.map mdTableRow ++
     ["", "## Detailed Analysis", ""] ++
     pc.screenshots.flatMap mdDetail)

/-- The manifest phase: one `RESULTS.md` per known platform, written under
that platform's output root. -/
def mdPhase (cfg : PipelineConfig) (fs : List (String × String)) :
    List (String × String) :=
  cfg.platforms.foldl (fun fs pc =>
    match outputRoot? pc.1 with
    | none => fs
    | some root => fsWrite fs (root ++ "/RESULTS.md") (resultsMarkdown cfg pc.1 pc.2)) fs

/-- `ScreenshotPipeline.generate` in default (full-rebuild) mode: clean
every known platform's output subtree, regenerate all images, then write
the per-platform manifests. -/
def generate (render : Render) (cfg : PipelineConfig) (fs : List (String × String)) :
    List (String × String) :=
  mdPhase cfg (writePhase render cfg (cleanPhase cfg fs))

theorem lookup_fsWrite (fs : List (String × String)) (p c q : String) :
    fsLookup (fsWrite fs p c) q = if q = p then some c else fsLookup fs q := by
  rw [fsLookup, fsWrite, List.lookup]
  rcases h : q == p with _ | _
  · rw [if_neg (by simpa using h)]
    rfl
  · rw [if_pos (by simpa using h)]

theorem lookup_filter (pred : String → Bool) :
    ∀ (fs : List (String × String)) (p : String),
    fsLookup (fs.filter (fun e => pred e.1)) p =
      if pred p then fsLookup fs p else none := by
  intro fs
  induction fs with
  | nil =>
    intro p
    simp [fsLookup]
  | cons e fs ih =>
    intro p
    obtain ⟨k, v⟩ := e
    by_cases hq : p = k
    · subst hq
      by_cases hk : pred p
      · rw [List.filter_cons_of_pos (by simpa using hk)]
        simp [fsLookup, List.lookup, hk]
      · rw [List.filter_cons_of_neg (by simpa using hk)]
        rw [ih p]
        simp [hk]
    · have hbeq : (p == k) = false := by simpa using hq
      by_cases hk : pred k
      · rw [List.filter_cons_of_pos (by simpa using hk)]
        simp only [fsLookup, List.lookup, hbeq]
        exact ih p
      · rw [List.filter_cons_of_neg (by simpa using hk)]
        rw [ih p]
        simp only [fsLookup, List.lookup, hbeq]

theorem underDir_append_right (root rest : String) :
    underDir root ((root ++ "/") ++ rest) = true := by
  rw [underDir, String.data_append]
  simp [List.isPrefixOf_iff_prefix]


theorem isPrefixOf_extend (l₁ l₂ r : List Char) (h : l₁.isPrefixOf l₂ = true) :
    l₁.isPrefixOf (l₂ ++ r) = true := by
  rw [List.isPrefixOf_iff_prefix] at *
  exact h.trans (List.prefix_append _ _)

theorem imageOutPath_under (platform : String) (size : Nat × Nat) (filename : String)
    (root : String) (h : outputRoot? platform = some root) :
    underDir root (imageOutPath platform size filename) = true := by
  rw [outputRoot?] at h
  rw [imageOutPath]
  by_cases h1 : platform = "android"
  · rw [if_pos h1] at h ⊢
    have hr : root = "Output/android" := (Option.some.inj h).symm
    subst hr
    rw [underDir]
    have hdata : ((("Output/android/phone/" ++ sizeLabel size) ++ "/" ++
        stem filename ++ ".png") : String).data =
        ("Output/android/phone/" : String).data ++ ((sizeLabel size).data ++
          (("/" : String).data ++ ((stem filename).data ++ (".png" : String).data))) := by
      simp [String.data_append]
    rw [hdata]
    apply isPrefixOf_extend
    decide
  · rw [if_neg h1] at h ⊢
    by_cases h2 : platform = "ios_iphone"
    · rw [if_pos h2] at h ⊢
      have hr : root = "Output/ios/iphone" := (Option.some.inj h).symm
      subst hr
      rw [underDir]
      have hdata : ((("Output/ios/iphone/" ++ sizeLabel size) ++ "/" ++
          stem filename ++ ".png") : String).data =
          ("Output/ios/iphone/" : String).data ++ ((sizeLabel size).data ++
            (("/" : String).data ++ ((stem filename).data ++ (".png" : String).data))) := by
        simp [String.data_append]
      rw [hdata]
      apply isPrefixOf_extend
      decide
    · rw [if_neg h2] at h ⊢
      by_cases h3 : platform = "ios_ipad"
      · rw [if_pos h3] at h
        have hr : root = "Output/ios/ipad" := (Option.some.inj h).symm
        subst hr
        rw [underDir]
        have hdata : ((("Output/ios/ipad/" ++ sizeLabel size) ++ "/" ++
            stem filename ++ ".png") : String).data =
            ("Output/ios/ipad/" : String).data ++ ((sizeLabel size).data ++
              (("/" : String).data ++ ((stem filename).data ++ (".png" : String).data))) := by
          simp [String.data_append]
        rw [hdata]
        apply isPrefixOf_extend
        decide
      · rw [if_neg h3] at h
        cases h

theorem mdPath_under (root : String) :
    underDir root (root ++ "/RESULTS.md") = true := by
  rw [show root ++ "/RESULTS.md" = (root ++ "/") ++ "RESULTS.md" from by
    rw [show ("/RESULTS.md" : String) = "/" ++ "RESULTS.md" from by decide]
    simp [String.append_assoc]]
  exact underDir_append_right _ _

theorem underOutput_of_root (pk root : String) (h : outputRoot? pk = some root)
    (p : String) (hu : underDir root p = true) : underOutput p = true := by
  rw [underDir] at hu
  rw [underOutput]
  have hpre : (root ++ "/").data <+: p.data := by simpa using hu
  have hout : ("Output/" : String).data <+: (root ++ "/").data := by
    rw [outputRoot?] at h
    by_cases h1 : pk = "android"
    · rw [if_pos h1] at h
      rw [← (Option.some.inj h)]
      decide
    · rw [if_neg h1] at h
      by_cases h2 : pk = "ios_iphone"
      · rw [if_pos h2] at h
        rw [← (Option.some.inj h)]
        decide
      · rw [if_neg h2] at h
        by_cases h3 : pk = "ios_ipad"
        · rw [if_pos h3] at h
          rw [← (Option.some.inj h)]
          decide
        · rw [if_neg h3] at h
          cases h
  simpa using hout.trans hpre

theorem not_underOutput_input (s : String) : underOutput ("Input/" ++ s) = false := by
  rw [underOutput, String.data_append]
  rw [show ("Input/" : String).data = 'I' :: "nput/".data from rfl]
  rw [show ("Output/" : String).data = 'O' :: "utput/".data from rfl]
  simp [List.isPrefixOf]

theorem not_underAnyRoot_of_not_underOutput (cfg : PipelineConfig) (p : String)
    (h : underOutput p = false) : underAnyRoot cfg p = false := by
  rw [underAnyRoot]
  rw [List.any_eq_false]
  intro root hroot
  rcases List.mem_filterMap.mp hroot with ⟨pc, _, hpc⟩
  intro hu
  have := underOutput_of_root pc.1 root hpc p hu
  rw [h] at this
  cases this

theorem srcPath_not_underOutput (platform filename : String) :
    underOutput (srcPath platform filename) = false := by
  rw [srcPath]
  rw [show ("Input/" ++ platform ++ "/" ++ filename) =
    "Input/" ++ (platform ++ "/" ++ filename) from by simp [String.append_assoc]]
  exact not_underOutput_input _

theorem sizesFor_known (pk : String) (sz : Nat × Nat) (h : sz ∈ sizesFor pk) :
    ∃ root, outputRoot? pk = some root := by
  rw [sizesFor] at h
  rw [outputRoot?]
  by_cases h1 : pk = "android"
  · rw [if_pos h1]
    exact ⟨_, rfl⟩
  · rw [if_neg h1] at h ⊢
    by_cases h2 : pk = "ios_iphone"
    · rw [if_pos h2]
      exact ⟨_, rfl⟩
    · rw [if_neg h2] at h ⊢
      by_cases h3 : pk = "ios_ipad"
      · rw [if_pos h3]
        exact ⟨_, rfl⟩
      · rw [if_neg h3] at h
        cases h

theorem genItems_platform (cfg : PipelineConfig) (it : GenItem) (hit : it ∈ genItems cfg) :
    ∃ root, outputRoot? it.platform = some root ∧ root ∈ cleanRoots cfg := by
  rw [genItems] at hit
  rcases List.mem_flatMap.mp hit with ⟨pc, hpc, hit2⟩
  rcases List.mem_flatMap.mp hit2 with ⟨ss, _, hit3⟩
  rcases List.mem_map.mp hit3 with ⟨sz, hsz, rfl⟩
  obtain ⟨root, hroot⟩ := sizesFor_known pc.1 sz hsz
  exact ⟨root, hroot, List.mem_filterMap.mpr ⟨pc, hpc, hroot⟩⟩

theorem foldl_genStep_frame (render : Render) :
    ∀ (items : List GenItem) (fs : List (String × String)) (p : String),
    (∀ it ∈ items, imageOutPath it.platform it.size it.filename ≠ p) →
    fsLookup (items.foldl (genStep render) fs) p = fsLookup fs p := by
  intro items
  induction items with
  | nil => intro fs p _; rfl
  | cons it its ih =>
    intro fs p hout
    rw [List.foldl_cons]
    rw [ih (genStep render fs it) p (fun x hx => hout x (List.mem_cons_of_mem _ hx))]
    rw [genStep]
    rcases hsrc : fsLookup fs (srcPath it.platform it.filename) with _ | src
    · rfl
    · rw [lookup_fsWrite, if_neg]
      intro hpe
      exact hout it (List.mem_cons_self _ _) hpe.symm

theorem foldl_genStep_agree (render : Render) :
    ∀ (items : List GenItem) (fs₁ fs₂ : List (String × String)) (p : String),
    (∀ it ∈ items, fsLookup fs₁ (srcPath it.platform it.filename) =
      fsLookup fs₂ (srcPath it.platform it.filename)) →
    fsLookup fs₁ p = fsLookup fs₂ p →
    fsLookup (items.foldl (genStep render) fs₁) p =
      fsLookup (items.foldl (genStep render) fs₂) p := by
  intro items
  induction items with
  | nil => intro fs₁ fs₂ p _ hp; exact hp
  | cons it its ih =>
    intro fs₁ fs₂ p hsrc hp
    rw [List.foldl_cons, List.foldl_cons]
    have hsrc0 := hsrc it (List.mem_cons_self _ _)
    have hstep : ∀ q, fsLookup fs₁ q = fsLookup fs₂ q →
        fsLookup (genStep render fs₁ it) q = fsLookup (genStep render fs₂ it) q := by
      intro q hq
      rw [genStep, genStep]
      rcases h1 : fsLookup fs₁ (srcPath it.platform it.filename) with _ | src
      · rw [← hsrc0, h1]
        exact hq
      · rw [← hsrc0, h1]
        rw [lookup_fsWrite, lookup_fsWrite, hq]
    refine ih (genStep render fs₁ it) (genStep render fs₂ it) p ?_ (hstep p hp)
    intro x hx
    exact hstep (srcPath x.platform x.filename) (hsrc x (List.mem_cons_of_mem _ hx))

/-- The manifest step, named for fold lemmas. -/
def mdStep (cfg : PipelineConfig) (fs : List (String × String))
    (pc : String × PlatformConfig) : List (String × String) :=
  match outputRoot? pc.1 with
  | none => fs
  | some root => fsWrite fs (root ++ "/RESULTS.md") (resultsMarkdown cfg pc.1 pc.2)

theorem mdPhase_eq (cfg : PipelineConfig) (fs : List (String × String)) :
    mdPhase cfg fs = cfg.platforms.foldl (mdStep cfg) fs := rfl

theorem foldl_mdStep_frame (cfg : PipelineConfig) :
    ∀ (pls : List (String × PlatformConfig)) (fs : List (String × String)) (p : String),
    (∀ pc ∈ pls, ∀ root, outputRoot? pc.1 = some root → root ++ "/RESULTS.md" ≠ p) →
    fsLookup (pls.foldl (mdStep cfg) fs) p = fsLookup fs p := by
  intro pls
  induction pls with
  | nil => intro fs p _; rfl
  | cons pc pls ih =>
    intro fs p hmd
    rw [List.foldl_cons]
    rw [ih (mdStep cfg fs pc) p (fun x hx => hmd x (List.mem_cons_of_mem _ hx))]
    rw [mdStep]
    rcases hroot : outputRoot? pc.1 with _ | root
    · rfl
    · rw [lookup_fsWrite, if_neg]
      intro hpe
      exact hmd pc (List.mem_cons_self _ _) root hroot hpe.symm

theorem foldl_mdStep_agree (cfg : PipelineConfig) :
    ∀ (pls : List (String × PlatformConfig)) (fs₁ fs₂ : List (String × String)) (p : String),
    fsLookup fs₁ p = fsLookup fs₂ p →
    fsLookup (pls.foldl (mdStep cfg) fs₁) p = fsLookup (pls.foldl (mdStep cfg) fs₂) p := by
  intro pls
  induction pls with
  | nil => intro fs₁ fs₂ p hp; exact hp
  | cons pc pls ih =>
    intro fs₁ fs₂ p hp
    rw [List.foldl_cons, List.foldl_cons]
    refine ih (mdStep cfg fs₁ pc) (mdStep cfg fs₂ pc) p ?_
    rw [mdStep, mdStep]
    rcases hroot : outputRoot? pc.1 with _ | root
    · exact hp
    · rw [lookup_fsWrite, lookup_fsWrite, hp]

theorem lookup_cleanPhase (cfg : PipelineConfig) (X : List (String × String)) (p : String) :
    fsLookup (cleanPhase cfg X) p =
      if underAnyRoot cfg p then none else fsLookup X p := by
  have h0 := lookup_filter (fun q => !underAnyRoot cfg q) X p
  rcases h : underAnyRoot cfg p with _ | _
  · rw [h] at h0
    rw [cleanPhase]
    simp only [Bool.not_false, if_true] at h0
    rw [if_neg (by simp)]
    exact h0
  · rw [h] at h0
    rw [cleanPhase]
    simp only [Bool.not_true, if_false] at h0
    rw [if_pos rfl]
    exact h0

/-- Frame of `generate`: any path outside every cleaned platform subtree is
untouched. -/
theorem generate_frame_any (render : Render) (cfg : PipelineConfig)
    (fs : List (String × String)) (p : String) (h : underAnyRoot cfg p = false) :
    fsLookup (generate render cfg fs) p = fsLookup fs p := by
  rw [generate, mdPhase_eq]
  rw [foldl_mdStep_frame cfg cfg.platforms _ p ?hmd]
  case hmd =>
    intro pc hpc root hroot hpe
    have h1 := mdPath_under root
    rw [hpe] at h1
    have h2 : root ∈ cleanRoots cfg := List.mem_filterMap.mpr ⟨pc, hpc, hroot⟩
    have : underAnyRoot cfg p = true := by
      rw [underAnyRoot]
      exact List.any_eq_true.mpr ⟨root, h2, h1⟩
    rw [h] at this
    cases this
  rw [writePhase]
  rw [foldl_genStep_frame render (genItems cfg) _ p ?hout]
  case hout =>
    intro it hit hpe
    obtain ⟨root, hroot, hmem⟩ := genItems_platform cfg it hit
    have h1 := imageOutPath_under it.platform it.size it.filename root hroot
    rw [hpe] at h1
    have : underAnyRoot cfg p = true := by
      rw [underAnyRoot]
      exact List.any_eq_true.mpr ⟨root, hmem, h1⟩
    rw [h] at this
    cases this
  rw [lookup_cleanPhase, if_neg (by simp [h])]

/-- C6: generate() is idempotent: a second run on its own output filesystem
produces a filesystem with identical contents at every path (byte-for-byte
identical output images and manifests). -/
theorem generate_idempotent (render : Render) (cfg : PipelineConfig)
    (fs : List (String × String)) (p : String) :
    fsLookup (generate render cfg (generate render cfg fs)) p =
      fsLookup (generate render cfg fs) p := by
  rcases h : underAnyRoot cfg p with _ | _
  · exact generate_frame_any render cfg (generate render cfg fs) p h
  · show fsLookup (mdPhase cfg (writePhase render cfg
        (cleanPhase cfg (generate render cfg fs)))) p =
      fsLookup (mdPhase cfg (writePhase render cfg (cleanPhase cfg fs))) p
    rw [mdPhase_eq, mdPhase_eq]
    apply foldl_mdStep_agree
    rw [writePhase, writePhase]
    apply foldl_genStep_agree
    · intro it _
      have hsrc : underAnyRoot cfg (srcPath it.platform it.filename) = false :=
        not_underAnyRoot_of_not_underOutput cfg _ (srcPath_not_underOutput _ _)
      rw [lookup_cleanPhase, lookup_cleanPhase,
        if_neg (by simp [hsrc]), if_neg (by simp [hsrc])]
      exact generate_frame_any render cfg fs _ hsrc
    · rw [lookup_cleanPhase, lookup_cleanPhase,
        if_pos (by simp [h]), if_pos (by simp [h])]

/-- C7: generate() never modifies the persisted config document
screenshot_config.json, and more generally leaves every path outside the
Output/ tree untouched: only the output subtrees and manifests are written. -/
theorem generate_preserves_config (render : Render) (cfg : PipelineConfig)
    (fs : List (String × String)) :
    fsLookup (generate render cfg fs) "screenshot_config.json" =
      fsLookup fs "screenshot_config.json" ∧
    (∀ p, underOutput p = false →
      fsLookup (generate render cfg fs) p = fsLookup fs p) := by
  have hgen : ∀ p, underOutput p = false →
      fsLookup (generate render cfg fs) p = fsLookup fs p := by
    intro p hp
    exact generate_frame_any render cfg fs p (not_underAnyRoot_of_not_underOutput cfg p hp)
  exact ⟨hgen _ (by decide), hgen⟩

def exampleRender : Render := fun _ _ _ _ _ => "IMG"

def exampleShot : ScreenshotConfig :=
  ⟨"01_Map.png", "map.png", some 1, some "hero", some true, "Map", "See it", ["map"], 9/10⟩

def examplePlatform : PlatformConfig :=
  ⟨"gradient_green", "phone", [exampleShot]⟩

def exampleConfig : PipelineConfig :=
  ⟨"1.0.0", "2025-01-01T00:00:00", true, [("android", examplePlatform)]⟩

def exampleFS : List (String × String) :=
  [("screenshot_config.json", "CFG"), ("Input/android/01_Map.png", "SRC")]

theorem generate_preserves_config_witness :
    underOutput "screenshot_config.json" = false ∧
    fsLookup (generate exampleRender exampleConfig exampleFS) "screenshot_config.json" =
      fsLookup exampleFS "screenshot_config.json" :=
  ⟨by decide,
    (generate_preserves_config exampleRender exampleConfig exampleFS).2
      "screenshot_config.json" (by decide)⟩
